import Mathlib

/-!
Verification of the `docset` container format library.

The development shallowly embeds the three source modules:

* `codec.py`    — the ndarray byte codec (`encode_ndarray` / `decode_ndarray`);
* `docset.py`   — the current-format `DocSetWriter` / `DocSetReader`,
  `ConcatDocSet`, and the `DocSet` factory;
* `docset_legacy.py` — the legacy head-embedded-metadata reader/writer.

Files are modelled as `List Nat` (byte sequences).  The generic BSON document
codec is an external collaborator of the library; documents are modelled as
association lists of string keys and simple values (`KVDoc`), and the
byte-level encoder/decoder pair is passed in as explicit `enc`/`dec`
parameters, with the round-trip facts the library relies on taken as
hypotheses.  Python exceptions are modelled by the `PyErr` type.
-/

set_option maxRecDepth 4000

/-- Python exception kinds that the embedded code can surface. -/
inductive PyErr where
  | runtimeError (msg : String)
  | structError
  | invalidBSON
  | indexError
  | keyError
  | valueError (msg : String)
  | typeError (msg : String)
deriving DecidableEq, Repr

/-- Scalar values that can appear in a document (a fragment of the BSON
value universe large enough for the claims: integers, strings, `None`,
raw byte blobs). -/
inductive Val where
  | vint (n : Int)
  | vstr (s : String)
  | vnone
  | vbytes (bs : List Nat)
deriving DecidableEq, Repr

/-- A document: an ordered, key-unique mapping from field names to values,
modelled as an association list (Python `dict` preserves insertion order). -/
abbrev KVDoc := List (String × Val)

/-- ASCII byte list of a string literal (helper for byte-string constants). -/
def asc (s : String) : List Nat := s.data.map Char.toNat

/-- `struct.pack('<Q', n)`: 8-byte little-endian encoding (faithful for
`n < 2^64`, which the theorems hypothesise where it matters). -/
def packU64 (n : Nat) : List Nat :=
  [n % 256, n / 256 % 256, n / 256 ^ 2 % 256, n / 256 ^ 3 % 256,
   n / 256 ^ 4 % 256, n / 256 ^ 5 % 256, n / 256 ^ 6 % 256, n / 256 ^ 7 % 256]

/-- Little-endian value of a byte list (`struct.unpack('<Q', ·)`). -/
def unpackLE (l : List Nat) : Nat := l.foldr (fun b acc => b + 256 * acc) 0

/-- `fp.seek(pos); struct.unpack('<Q', fp.read(8))`: reading fewer than 8
bytes (seek past EOF) makes `unpack` raise `struct.error`. -/
def readU64 (file : List Nat) (pos : Nat) : Except PyErr Nat :=
  if pos + 8 ≤ file.length then .ok (unpackLE ((file.drop pos).take 8))
  else .error .structError

def NONE_VALUE : Nat := 0xFFFFFFFFFFFFFFFF

def TYPE_STR : List Nat := asc "DOCSET71"

def MAX_HEAD_SIZE : Nat := 16777216

def MIN_HEAD_SIZE : Nat := 512

/-! ## `codec.py`: the ndarray byte codec

Python-semantics helpers first: `bytes.find`, slicing with possibly negative
ends, `bytes.split(b',')`, and `int()` parsing. -/

/-- `data.find(b, start)` for a single byte: index of first occurrence at or
after `start`, or `-1` when absent (`start ≥ 0` at every call site). -/
def pyFindFrom (l : List Nat) (b : Nat) (start : Nat) : Int :=
  match (l.drop start).findIdx? (fun x => x == b) with
  | some i => ((start + i : Nat) : Int)
  | none => -1

/-- Normalise a Python slice endpoint against a list of length `n`:
negative indices count from the end (clamped at 0), positive ones are
clamped at `n`. -/
def pyIdx (n : Nat) (j : Int) : Nat :=
  if j < 0 then n - (-j).toNat else min j.toNat n

/-- Python slice `l[a:b]`. -/
def pySlice (l : List α) (a b : Int) : List α :=
  (l.take (pyIdx l.length b)).drop (pyIdx l.length a)

/-- Python slice `l[:b]`. -/
def pySliceTo (l : List α) (b : Int) : List α := l.take (pyIdx l.length b)

/-- Python slice `l[a:]`. -/
def pySliceFrom (l : List α) (a : Int) : List α := l.drop (pyIdx l.length a)

/-- `bytes.split(b',')` on a byte list: splits at every separator byte,
keeping empty pieces (`b''.split(b',') == [b'']`). -/
def splitOnByte (sep : Nat) : List Nat → List (List Nat)
  | [] => [[]]
  | b :: rest =>
    if b = sep then [] :: splitOnByte sep rest
    else
      match splitOnByte sep rest with
      | t :: ts => (b :: t) :: ts
      | [] => [[b]]

/-- ASCII whitespace bytes stripped by Python `int()`. -/
def isPyWS (b : Nat) : Bool := b = 32 || b = 9 || b = 10 || b = 11 || b = 12 || b = 13

/-- Strip leading and trailing whitespace from a byte list. -/
def stripWS (l : List Nat) : List Nat :=
  ((l.dropWhile isPyWS).reverse.dropWhile isPyWS).reverse

def isDigitByte (b : Nat) : Bool := 48 ≤ b && b ≤ 57

/-- Whether a byte list matches the digit body of a Python integer literal:
one or more digit groups separated by single underscores (`1_0` is legal,
`_1`, `1_`, `1__0` are not). -/
def digitBodyOK (l : List Nat) : Bool :=
  (splitOnByte 95 l).all (fun g => !g.isEmpty && g.all isDigitByte)

/-- Numeric value of a digit body (underscores removed). -/
def digitBodyVal (l : List Nat) : Nat :=
  (l.filter isDigitByte).foldl (fun acc d => 10 * acc + (d - 48)) 0

/-- `int(token)` on a byte token: strips whitespace, optional `+`/`-` sign,
then a digit body; any other input raises `ValueError` (modelled `none`). -/
def pyIntParse (l : List Nat) : Option Int :=
  let t := stripWS l
  if t.head? = some 43 then
    if digitBodyOK t.tail then some (digitBodyVal t.tail : Int) else none
  else if t.head? = some 45 then
    if digitBodyOK t.tail then some (-(digitBodyVal t.tail : Int)) else none
  else if digitBodyOK t then some (digitBodyVal t : Int) else none

/-- ASCII decimal rendering of a natural number, most significant digit
first (`str(n)` for `n ≥ 0`). -/
def digitsOf (n : Nat) : List Nat :=
  if h : n < 10 then [48 + n]
  else digitsOf (n / 10) ++ [48 + n % 10]
decreasing_by exact Nat.div_lt_self (by omega) (by omega)

/-- `str(shape)` for a tuple body: the comma/space-separated dimension list
without the surrounding parentheses and without the singleton's trailing
comma. -/
def shapeInner : List Nat → List Nat
  | [] => []
  | [n] => digitsOf n
  | n :: rest => digitsOf n ++ 44 :: 32 :: shapeInner rest

/-- The text between the parentheses of `str(a.shape)`: the rank-1 case
carries the trailing comma of the singleton tuple. -/
def shapeBody (s : List Nat) : List Nat :=
  match s with
  | [n] => digitsOf n ++ [44]
  | _ => shapeInner s

/-- `str(a.shape).encode()`: `()` for rank 0, `(5,)` for rank 1,
`(2, 3)` style otherwise. -/
def shapeRepr (s : List Nat) : List Nat :=
  match s with
  | [n] => 40 :: digitsOf n ++ [44, 41]
  | _ => 40 :: shapeInner s ++ [41]

/-- Element size (in bytes) of a numpy dtype byte tag, `none` when the tag
is not understood.  Modelled from numpy (external library): the table lists
the `dtype.str` forms of the fixed-width numeric types (plus the byte-order
variants numpy accepts for them); anything outside it is treated as
unrecognised, which matches numpy on every tag appearing in this
development. -/
def DTYPE_TABLE : List (List Nat × Nat) :=
  [(asc "|b1", 1), (asc "|i1", 1), (asc "|u1", 1),
   (asc "<i2", 2), (asc "<u2", 2), (asc "<i4", 4), (asc "<u4", 4),
   (asc "<i8", 8), (asc "<u8", 8), (asc "<f2", 2), (asc "<f4", 4),
   (asc "<f8", 8), (asc "<c8", 8), (asc "<c16", 16),
   (asc ">i2", 2), (asc ">u2", 2), (asc ">i4", 4), (asc ">u4", 4),
   (asc ">i8", 8), (asc ">u8", 8), (asc ">f4", 4), (asc ">f8", 8)]

def dtypeSize (s : List Nat) : Option Nat := List.lookup s DTYPE_TABLE

def natProd (l : List Nat) : Nat := l.foldl (fun a b => a * b) 1

/-- A numpy ndarray as the codec sees it: the dtype tag bytes
(`a.dtype.str`), the shape, the row-major element bytes, and whether the
array owns its buffer (`False` for a view created over a borrowed buffer,
`True` for an owned copy such as the result of `np.array`). -/
structure NDArray where
  dtype : List Nat
  shape : List Nat
  data : List Nat
  owned : Bool
deriving DecidableEq, Repr

/-- `encode_ndarray`: dtype tag bytes, then the ASCII tuple rendering of the
shape, then the raw row-major bytes. -/
def encode_ndarray (a : NDArray) : List Nat :=
  a.dtype ++ shapeRepr a.shape ++ a.data

/-- `np.ndarray(dtype=dtype, shape=shape, buffer=buffer)`: fails when the
dtype is not understood, a dimension is negative, or the buffer holds fewer
than `element_size * product(shape)` bytes; otherwise yields a view (not an
owned copy) over the first `element_size * product(shape)` buffer bytes. -/
def np_ndarray (dtype : List Nat) (dims : List Int) (buffer : List Nat) :
    Except PyErr NDArray :=
  match dtypeSize dtype with
  | none => .error (.typeError "data type not understood")
  | some esz =>
    if dims.any (fun d => d < 0) then
      .error (.valueError "negative dimensions are not allowed")
    else
      let shape := dims.map Int.toNat
      let req := esz * natProd shape
      if buffer.length < req then
        .error (.typeError "buffer is too small for requested array")
      else .ok ⟨dtype, shape, buffer.take req, false⟩

/-- `np.array(a)`: an owned copy of the array. -/
def np_array (a : NDArray) : NDArray := { a with owned := true }

/-- The header-parsing phase of `decode_ndarray`: the dtype byte slice, the
parsed shape dimensions (`none` when some token is not an integer literal),
and the remaining buffer bytes, each obtained exactly as in the source
(`find(b'(')`, `find(b')', shape_start)`, the three slices, the
comma-split / non-empty filter / `int()` pass). -/
def parseNdarrayHeader (data : List Nat) :
    List Nat × Option (List Int) × List Nat :=
  let dtype_end : Int := pyFindFrom data 40 0
  let shape_start : Int := dtype_end + 1
  let shape_end : Int := pyFindFrom data 41 shape_start.toNat
  let dtype := pySliceTo data dtype_end
  let shapeBytes := pySlice data shape_start shape_end
  let toks := (splitOnByte 44 shapeBytes).filter (fun t => t ≠ [])
  (dtype, toks.mapM pyIntParse, pySliceFrom data (shape_end + 1))

/-- `decode_ndarray`: parse the header, build the numpy view over the
remaining bytes, and return an owned copy of it (`np.array(a)`). -/
def decode_ndarray (data : List Nat) : Except PyErr NDArray :=
  match parseNdarrayHeader data with
  | (_, none, _) => .error (.valueError "invalid literal for int")
  | (dtype, some dims, buffer) => (np_ndarray dtype dims buffer).map np_array

/-! ## `docset.py`: current-format writer and reader

The writer is modelled by the byte file it produces.  `writerFile` is the
file after `close()`: placeholder header overwritten by the final header,
then the length-prefixed document stream, the index region, and the
metadata block.  `writerFileUnclosed` is the file of a writer that was
never closed (placeholder header with sentinel offsets still in place). -/

/-- `STRUCT_HEADER.pack(TYPE_STR, count, index_start, meta_start)`. -/
def header32 (count istart mstart : Nat) : List Nat :=
  TYPE_STR ++ packU64 count ++ packU64 istart ++ packU64 mstart

/-- The document stream: for each document, an 8-byte length prefix followed
by its encoded bytes, in write order. -/
def docsBody (enc : KVDoc → List Nat) : List KVDoc → List Nat
  | [] => []
  | d :: rest => packU64 (enc d).length ++ enc d ++ docsBody enc rest

/-- The positions captured by `DocSetWriter.write` (`self._fp.tell()` before
each record), for a document stream starting at byte `p`. -/
def docPositions (enc : KVDoc → List Nat) (p : Nat) : List KVDoc → List Nat
  | [] => []
  | d :: rest => p :: docPositions enc (p + 8 + (enc d).length) rest

/-- The index region: each position packed as an 8-byte offset. -/
def packList : List Nat → List Nat
  | [] => []
  | x :: rest => packU64 x ++ packList rest

/-- The file produced by `DocSetWriter` after writing `docs` in order and
calling `close()` with metadata document `meta`. -/
def writerFile (enc : KVDoc → List Nat) (docs : List KVDoc) (meta : KVDoc) :
    List Nat :=
  let body := docsBody enc docs
  let istart := 32 + body.length
  let mstart := istart + 8 * docs.length
  header32 docs.length istart mstart ++ body ++
    packList (docPositions enc 32 docs) ++ packU64 (enc meta).length ++ enc meta

/-- The file of a writer whose process ended before `close()`: the
placeholder header (count 0, both offsets the sentinel) and the document
stream written so far. -/
def writerFileUnclosed (enc : KVDoc → List Nat) (docs : List KVDoc) : List Nat :=
  header32 0 NONE_VALUE NONE_VALUE ++ docsBody enc docs

/-- The state of an open `DocSetReader`: header fields, decoded metadata,
the lazily populated offset cache (entries `NONE_VALUE` until their block is
loaded), the process id captured at construction or at the last read, and a
generation counter standing for the identity of the underlying OS file
handle (bumped whenever the handle is reopened). -/
structure RState where
  count : Nat
  index_start : Nat
  meta_doc : KVDoc
  cache : List Nat
  pid : Nat
  fpGen : Nat
deriving DecidableEq, Repr

/-- `DocSetReader.__init__`: read and unpack the 32-byte header (a short
read raises `struct.error`), check the magic tag, reject sentinel offsets,
seek to the metadata block and decode it (`InvalidBSON` becomes
`RuntimeError('Invalid metadata')`), then allocate the all-sentinel index
cache and capture `os.getpid()`. -/
def openCurrentReader (dec : List Nat → Option KVDoc) (file : List Nat)
    (pid : Nat) : Except PyErr RState :=
  if file.length < 32 then .error .structError
  else
    let type_str := file.take 8
    let count := unpackLE ((file.drop 8).take 8)
    let istart := unpackLE ((file.drop 16).take 8)
    let mstart := unpackLE ((file.drop 24).take 8)
    if type_str ≠ TYPE_STR then .error (.runtimeError "Invalid DocSet file")
    else if istart = NONE_VALUE ∨ mstart = NONE_VALUE then
      .error (.runtimeError "Incomplete DocSet")
    else
      match readU64 file mstart with
      | .error e => .error e
      | .ok msz =>
        match dec ((file.drop (mstart + 8)).take msz) with
        | none => .error (.runtimeError "Invalid metadata")
        | some m => .ok ⟨count, istart, m, List.replicate count NONE_VALUE, pid, 0⟩

/-- The `for j in range(i_left, i_right)` loop of `read`: load `fuel`
consecutive 8-byte index entries starting at entry `l`, mutating the cache
as it goes (a failed read leaves the entries loaded so far in place, as the
raised exception would in Python). -/
def loadIdx (file : List Nat) (istart : Nat) :
    Nat → Nat → List Nat → Except PyErr Unit × List Nat
  | 0, _, cache => (.ok (), cache)
  | fuel + 1, l, cache =>
    match readU64 file (istart + 8 * l) with
    | .error e => (.error e, cache)
    | .ok v => loadIdx file istart fuel (l + 1) (cache.set l v)

/-- `(i // block_size) * block_size`. -/
def blockLeft (bs i : Nat) : Nat := i / bs * bs

/-- The body of `DocSetReader.read` after the fork check, shared verbatim
with the legacy reader: bounds-check the index (numpy raises `IndexError`),
load the enclosing index block if entry `i` is still the sentinel, then
fetch and decode the length-prefixed document at the cached offset.
Returns the result together with the possibly-updated cache. -/
def indexedRead (dec : List Nat → Option KVDoc) (file : List Nat)
    (bs istart count : Nat) (cache : List Nat) (i : Nat) :
    Except PyErr KVDoc × List Nat :=
  if i < cache.length then
    let step :=
      if cache.getD i 0 = NONE_VALUE then
        let l := blockLeft bs i
        let r := min (l + bs) count
        loadIdx file istart (r - l) l cache
      else (.ok (), cache)
    match step with
    | (.error e, cache') => (.error e, cache')
    | (.ok _, cache') =>
      let pos := cache'.getD i 0
      match readU64 file pos with
      | .error e => (.error e, cache')
      | .ok sz =>
        match dec ((file.drop (pos + 8)).take sz) with
        | none => (.error .invalidBSON, cache')
        | some d => (.ok d, cache')
  else (.error .indexError, cache)

/-- The fork check at the top of `DocSetReader.read`: when the calling
process's id differs from the recorded one, close and reopen the file
handle (a fresh handle generation) and record the new id; nothing else in
the state is touched. -/
def pidCheck (st : RState) (curPid : Nat) : RState :=
  if curPid ≠ st.pid then { st with fpGen := st.fpGen + 1, pid := curPid } else st

/-- `DocSetReader.read(i)` called from process `curPid`. -/
def readCur (dec : List Nat → Option KVDoc) (file : List Nat) (bs : Nat)
    (st : RState) (curPid i : Nat) : Except PyErr KVDoc × RState :=
  let st1 := pidCheck st curPid
  let res := indexedRead dec file bs st1.index_start st1.count st1.cache i
  (res.1, { st1 with cache := res.2 })

/-- Run a sequence of `read` calls for their effect on the reader state. -/
def runOps (dec : List Nat → Option KVDoc) (file : List Nat) (bs pid : Nat) :
    List Nat → RState → RState
  | [], st => st
  | j :: rest, st => runOps dec file bs pid rest (readCur dec file bs st pid j).2

/-! ## `docset_legacy.py`: legacy writer and reader -/

/-- The three reserved keys of the legacy head document at close time
(`__HDS__` head size, `__CNT__` record count, `__IDX__` index start). -/
def legacyBasicDoc (head_size count index_pos : Nat) : KVDoc :=
  [("__HDS__", .vint head_size), ("__CNT__", .vint count), ("__IDX__", .vint index_pos)]

/-- Python `{**a, **b}`: keys of `a` in order (values overridden by `b`
where present), then the keys of `b` not in `a`, in `b`'s order. -/
def pyDictMerge (a b : KVDoc) : KVDoc :=
  a.map (fun kv => (kv.1, ((b.lookup kv.1).getD kv.2))) ++
    b.filter (fun kv => (a.lookup kv.1).isNone)

/-- The head document the legacy writer ends up encoding at `close()`:
the reserved keys merged with the user metadata when that fits in the head
region (8-byte length prefix included), the reserved keys alone otherwise
(`_write_head`'s silent retry). -/
def legacyHeadDoc (enc : KVDoc → List Nat) (head_size : Nat)
    (docs : List KVDoc) (meta : KVDoc) : KVDoc :=
  let basic := legacyBasicDoc head_size docs.length
    (head_size + (docsBody enc docs).length)
  let full := pyDictMerge basic meta
  if 8 + (enc full).length ≤ head_size then full else basic

/-- The file produced by the legacy `DocSetWriter` after writing `docs` and
closing with metadata `meta`: the head region (length prefix, head document,
zero padding up to `head_size`), the document stream, and the trailing index
region.  Faithful whenever the reserved keys alone fit in the head region
(the writer's asserted operating regime). -/
def legacyWriterFile (enc : KVDoc → List Nat) (head_size : Nat)
    (docs : List KVDoc) (meta : KVDoc) : List Nat :=
  let headDoc := legacyHeadDoc enc head_size docs meta
  let sz := (enc headDoc).length
  packU64 sz ++ enc headDoc ++ List.replicate (head_size - (8 + sz)) 0 ++
    docsBody enc docs ++ packList (docPositions enc head_size docs)

/-- The state of a legacy `DocSetReader`: the values of the reserved head
keys (`__HDS__` is stored but never used afterwards; `__IDX__` is only
interpreted as an offset inside `read`), the stripped user metadata, whether
a file handle is currently open (`None` right after construction), and the
lazy offset cache. -/
structure LState where
  head_sizeV : Val
  index_startV : Val
  count : Nat
  meta_doc : KVDoc
  fpOpen : Bool
  cache : List Nat
deriving DecidableEq, Repr

/-- Remove the three reserved keys from the decoded head document, leaving
the user metadata. -/
def stripReserved (doc : KVDoc) : KVDoc :=
  doc.filter (fun kv => ¬(kv.1 = "__HDS__" ∨ kv.1 = "__CNT__" ∨ kv.1 = "__IDX__"))

/-- Legacy `DocSetReader.__init__`: read the leading 8-byte length prefix,
reject lengths above `MAX_HEAD_SIZE` or the file size, decode the head
document (failure is `RuntimeError('Invalid DocSet file')`), extract the
three reserved keys (absence is `RuntimeError('Corrupted meta document')`),
allocate the all-sentinel index cache (`np.full` needs a non-negative
integer count), strip the reserved keys, and leave the file handle closed
(`self._fp = None`). -/
def legacyOpen (dec : List Nat → Option KVDoc) (file : List Nat) :
    Except PyErr LState :=
  match readU64 file 0 with
  | .error e => .error e
  | .ok sz =>
    if sz > MAX_HEAD_SIZE ∨ sz > file.length then
      .error (.runtimeError "Invalid DocSet file")
    else
      match dec ((file.drop 8).take sz) with
      | none => .error (.runtimeError "Invalid DocSet file")
      | some doc =>
        match doc.lookup "__HDS__", doc.lookup "__CNT__", doc.lookup "__IDX__" with
        | some hds, some cnt, some idx =>
          match cnt with
          | .vint n =>
            if n < 0 then .error (.valueError "negative dimensions are not allowed")
            else .ok ⟨hds, idx, n.toNat, stripReserved doc, false,
                      List.replicate n.toNat NONE_VALUE⟩
          | _ => .error (.typeError "count is not an integer")
        | _, _, _ => .error (.runtimeError "Corrupted meta document")

/-- Legacy `DocSetReader.close`: drop the handle if one is open. -/
def legacyClose (r : LState) : LState := { r with fpOpen := false }

/-- Legacy `DocSetReader.read(i)`: reopen the file lazily if the handle is
absent, then run the shared indexed-read algorithm with the index region
base taken from `__IDX__` (a non-integer or negative value there fails at
the seek). -/
def legacyRead (dec : List Nat → Option KVDoc) (file : List Nat) (bs : Nat)
    (r : LState) (i : Nat) : Except PyErr KVDoc × LState :=
  let r1 := { r with fpOpen := true }
  match r1.index_startV with
  | .vint m =>
    if m < 0 then (.error (.valueError "negative seek position"), r1)
    else
      let res := indexedRead dec file bs m.toNat r1.count r1.cache i
      (res.1, { r1 with cache := res.2 })
  | _ => (.error (.typeError "unsupported operand type"), r1)

/-! ## The `DocSet` factory (read mode) -/

/-- `DocSet(path, 'r')`: try the current-format reader; on any
`RuntimeError` fall back to the legacy reader (whose own failure is then
what the caller sees); every other exception propagates. -/
def docSetRead (dec : List Nat → Option KVDoc) (file : List Nat)
    (blockSize pid : Nat) : Except PyErr (RState ⊕ LState) :=
  match openCurrentReader dec file pid with
  | .ok st => .ok (.inl st)
  | .error (.runtimeError _) =>
    match legacyOpen dec file with
    | .ok st => .ok (.inr st)
    | .error e => .error e
  | .error e => .error e

/-! ## `ConcatDocSet` -/

/-- The running cumulative sizes built by `ConcatDocSet.__init__`, starting
from accumulated size `acc`.  Constituent readers are abstracted by the
document lists they expose (`len(ds)` is the list length). -/
def cumSizesFrom (acc : Nat) : List (List α) → List Nat
  | [] => []
  | ds :: rest => (acc + ds.length) :: cumSizesFrom (acc + ds.length) rest

def cumSizes (dss : List (List α)) : List Nat := cumSizesFrom 0 dss

/-- `ConcatDocSet.__len__`: the last cumulative size (the constructor
asserts the reader list is non-empty). -/
def concatLen (dss : List (List α)) : Nat := (cumSizes dss).getLastD 0

/-- A constituent reader's `__getitem__`: the document at the position, or
`IndexError` out of range. -/
def listRead (l : List α) (j : Nat) : Except PyErr α :=
  match l.get? j with
  | some d => .ok d
  | none => .error .indexError

/-- The non-negative-index path of `ConcatDocSet.read`:
`bisect.bisect_right` over the (sorted) cumulative sizes — the number of
leading entries `≤ i` — then the local index and the dispatch
(`self.ds_list[ds_idx]` raises `IndexError` when the search runs off the
end). -/
def concatReadCore (dss : List (List α)) (j : Nat) : Except PyErr α :=
  let cums := cumSizes dss
  let k := (cums.takeWhile (fun c => c ≤ j)).length
  let loc := if k = 0 then j else j - cums.getD (k - 1) 0
  match dss.get? k with
  | none => .error .indexError
  | some ds => listRead ds loc

/-- `ConcatDocSet.read(i)`: negative indices are remapped to `len() + i`
after the `-i > len()` range check (`ValueError`). -/
def concatRead (dss : List (List α)) (i : Int) : Except PyErr α :=
  if i < 0 then
    if -i > (concatLen dss : Int) then
      .error (.valueError "absolute value of index should not exceed dataset length")
    else concatReadCore dss ((concatLen dss : Int) + i).toNat
  else concatReadCore dss i.toNat

/-! ## Concrete instances used by the closed witness/counterexample theorems

The generic document codec is an external collaborator (BSON); the theorems
below are parametric in the `enc`/`dec` pair and assume only the round-trip
facts the library relies on.  The following small injective codecs provide
concrete instantiations. -/

/-- A three-document universe with a one-byte encoding, used to instantiate
the parametric container theorems. -/
def wDoc (n : Nat) : KVDoc := [("a", .vint n)]

def wEnc : KVDoc → List Nat := fun d =>
  if d = wDoc 0 then [1] else if d = wDoc 1 then [2]
  else if d = wDoc 2 then [3] else [0, 0]

def wDec : List Nat → Option KVDoc := fun bs =>
  if bs = [1] then some (wDoc 0) else if bs = [2] then some (wDoc 1)
  else if bs = [3] then some (wDoc 2) else none

/-- A current-format file with a valid magic tag, resolved offsets and a
metadata block (`[7, 7]`) that the document decoder rejects. -/
def corruptMetaFile : List Nat := header32 0 32 32 ++ packU64 2 ++ [7, 7]

/-- The reserved head document of an empty legacy container with the
default head size. -/
def lBasicW : KVDoc := legacyBasicDoc 512 0 512

/-- A codec that encodes the reserved head document on one byte and every
other document on 600 bytes — so that the reserved keys alone fit in a
512-byte head region while any merged head document overflows it. -/
def lEncW : KVDoc → List Nat := fun d =>
  if d = lBasicW then [9] else List.replicate 600 0

def lDecW : List Nat → Option KVDoc := fun bs =>
  if bs = [9] then some lBasicW else none

/-- A user metadata document for the legacy overflow scenario. -/
def lMetaW : KVDoc := [("k", .vint 7)]

/-! ## Byte-level helper lemmas -/

theorem packU64_length (n : Nat) : (packU64 n).length = 8 := rfl

theorem unpackLE_packU64 (n : Nat) (h : n < 2 ^ 64) : unpackLE (packU64 n) = n := by
  simp only [packU64, unpackLE, List.foldr]
  omega

theorem readU64_at (A B : List Nat) (n : Nat) (h : n < 2 ^ 64) :
    readU64 (A ++ packU64 n ++ B) A.length = .ok n := by
  have hlen : A.length + 8 ≤ (A ++ packU64 n ++ B).length := by
    simp [packU64_length]
  rw [readU64, if_pos hlen, List.append_assoc, List.drop_left]
  have : packU64 n ++ B = packU64 n ++ B := rfl
  rw [show (8 : Nat) = (packU64 n).length from rfl, List.take_left,
    unpackLE_packU64 n h]

theorem slice_at (A X B : List Nat) :
    ((A ++ X ++ B).drop A.length).take X.length = X := by
  rw [List.append_assoc, List.drop_left, List.take_left]

theorem header32_length (c i m : Nat) : (header32 c i m).length = 32 := rfl

/-- Reading the four header fields of a file that starts with a packed
header. -/
theorem header32_fields (c i m : Nat) (R : List Nat)
    (hc : c < 2 ^ 64) (hi : i < 2 ^ 64) (hm : m < 2 ^ 64) :
    (header32 c i m ++ R).take 8 = TYPE_STR ∧
    unpackLE (((header32 c i m ++ R).drop 8).take 8) = c ∧
    unpackLE (((header32 c i m ++ R).drop 16).take 8) = i ∧
    unpackLE (((header32 c i m ++ R).drop 24).take 8) = m := by
  have e : header32 c i m ++ R =
      TYPE_STR ++ (packU64 c ++ (packU64 i ++ (packU64 m ++ R))) := by
    simp [header32, List.append_assoc]
  refine ⟨?_, ?_, ?_, ?_⟩
  · rw [e, show (8 : Nat) = TYPE_STR.length from rfl, List.take_left]
  · rw [e, show (8 : Nat) = TYPE_STR.length from rfl, List.drop_left,
      show TYPE_STR.length = (packU64 c).length from rfl, List.take_left,
      unpackLE_packU64 c hc]
  · have e2 : header32 c i m ++ R = (TYPE_STR ++ packU64 c) ++ (packU64 i ++ (packU64 m ++ R)) := by
      simp [header32, List.append_assoc]
    rw [e2, show (16 : Nat) = (TYPE_STR ++ packU64 c).length by rfl, List.drop_left,
      show (8 : Nat) = (packU64 i).length from rfl, List.take_left,
      unpackLE_packU64 i hi]
  · have e2 : header32 c i m ++ R = (TYPE_STR ++ packU64 c ++ packU64 i) ++ (packU64 m ++ R) := by
      simp [header32, List.append_assoc]
    rw [e2, show (24 : Nat) = (TYPE_STR ++ packU64 c ++ packU64 i).length by rfl, List.drop_left,
      show (8 : Nat) = (packU64 m).length from rfl, List.take_left,
      unpackLE_packU64 m hm]

theorem NONE_VALUE_lt : NONE_VALUE < 2 ^ 64 := by decide

/-! ## C5: incomplete containers are rejected -/

theorem open_incomplete (dec : List Nat → Option KVDoc) (file : List Nat) (pid : Nat)
    (h8 : file.take 8 = TYPE_STR) (h32 : 32 ≤ file.length)
    (hsent : unpackLE ((file.drop 16).take 8) = NONE_VALUE ∨
             unpackLE ((file.drop 24).take 8) = NONE_VALUE) :
    openCurrentReader dec file pid = .error (.runtimeError "Incomplete DocSet") := by
  rw [openCurrentReader, if_neg (by omega)]
  simp only [h8]
  rw [if_neg (by simp), if_pos hsent]

/-- C5: opening the current-format `DocSetReader` on a file whose header
still carries the sentinel in the index offset or the metadata offset (in
particular the file of a writer interrupted before `close()`, whose
placeholder header carries the sentinel in both) fails with the
recognizable `RuntimeError('Incomplete DocSet')` instead of yielding a
reader. -/
theorem c5_sentinel_offsets_rejected (dec : List Nat → Option KVDoc)
    (enc : KVDoc → List Nat) (file : List Nat) (docs : List KVDoc) (pid : Nat)
    (h8 : file.take 8 = TYPE_STR) (h32 : 32 ≤ file.length)
    (hsent : unpackLE ((file.drop 16).take 8) = NONE_VALUE ∨
             unpackLE ((file.drop 24).take 8) = NONE_VALUE) :
    openCurrentReader dec file pid = .error (.runtimeError "Incomplete DocSet") ∧
    openCurrentReader dec (writerFileUnclosed enc docs) pid =
      .error (.runtimeError "Incomplete DocSet") := by
  have hf := header32_fields 0 NONE_VALUE NONE_VALUE (docsBody enc docs)
    (by decide) NONE_VALUE_lt NONE_VALUE_lt
  refine ⟨open_incomplete dec file pid h8 h32 hsent, ?_⟩
  exact open_incomplete dec _ pid hf.1
    (by simp [writerFileUnclosed, header32_length]) (Or.inl hf.2.2.1)

theorem c5_witness :
    (writerFileUnclosed wEnc [wDoc 0]).take 8 = TYPE_STR ∧
    openCurrentReader wDec (writerFileUnclosed wEnc [wDoc 0]) 5 =
      .error (.runtimeError "Incomplete DocSet") := by
  refine ⟨by decide, ?_⟩
  exact (c5_sentinel_offsets_rejected wDec wEnc (writerFileUnclosed wEnc [wDoc 0])
    [wDoc 0] 5 (by decide) (by decide) (Or.inl (by decide))).2

/-! ## C2: corrupted metadata and the factory's fallback -/

/-- C2 counterexample: a current-format file with a valid magic tag,
resolved offsets, and an undecodable metadata document.  The current-format
reader fails with `RuntimeError('Invalid metadata')`, yet the `DocSet`
factory does NOT surface that failure: it falls back to the Legacy Reader
(its `except RuntimeError` covers every `RuntimeError`), and the caller
receives the legacy reader's own rejection instead — refuting "does not
fall back to the Legacy Reader". -/
theorem c2_counterexample :
    openCurrentReader wDec corruptMetaFile 1 =
      .error (.runtimeError "Invalid metadata") ∧
    docSetRead wDec corruptMetaFile 512 1 =
      .error (.runtimeError "Invalid DocSet file") := by
  exact ⟨rfl, rfl⟩

/-- C2 (amended): when a current-format file has a valid magic tag and its
metadata fails to decode, opening through the `DocSet` factory still
surfaces an error to the caller (the file stays unreadable), but only after
falling back to the Legacy Reader: the legacy parse reads the magic bytes
as an over-large head length and rejects the file, and that legacy error is
what the caller sees. -/
theorem c2_metadata_failure_falls_back (dec : List Nat → Option KVDoc)
    (file : List Nat) (bs pid : Nat)
    (h8 : file.take 8 = TYPE_STR) (h32 : 32 ≤ file.length)
    (hfail : openCurrentReader dec file pid =
      .error (.runtimeError "Invalid metadata")) :
    docSetRead dec file bs pid = .error (.runtimeError "Invalid DocSet file") := by
  have h0 : readU64 file 0 = .ok (unpackLE TYPE_STR) := by
    rw [readU64, if_pos (by omega)]
    rw [List.drop_zero, h8]
  have hleg : legacyOpen dec file = .error (.runtimeError "Invalid DocSet file") := by
    simp only [legacyOpen, h0]
    rw [if_pos (Or.inl (by decide))]
  simp only [docSetRead, hfail, hleg]

theorem c2_witness :
    corruptMetaFile.take 8 = TYPE_STR ∧
    docSetRead wDec corruptMetaFile 9 1 =
      .error (.runtimeError "Invalid DocSet file") :=
  ⟨by decide, c2_metadata_failure_falls_back wDec corruptMetaFile 9 1
    (by decide) (by decide) rfl⟩

/-! ## C9: fork safety is a frame condition on the file handle -/

/-- C9: when `DocSetReader.read` observes a process identity different from
the recorded one, the fork check reopens only the file handle (a fresh
handle generation) and records the new identity; the cached offset index
and every other reader field are untouched, and the read returns the same
document (and produces the same cache) as it would have under the original
identity. -/
theorem c9_fork_reopens_only_handle (dec : List Nat → Option KVDoc)
    (file : List Nat) (bs : Nat) (st : RState) (p : Nat) (hp : p ≠ st.pid)
    (i : Nat) :
    (pidCheck st p).cache = st.cache ∧
    (pidCheck st p).pid = p ∧
    (pidCheck st p).fpGen = st.fpGen + 1 ∧
    (pidCheck st p).count = st.count ∧
    (pidCheck st p).index_start = st.index_start ∧
    (pidCheck st p).meta_doc = st.meta_doc ∧
    (readCur dec file bs st p i).1 = (readCur dec file bs st st.pid i).1 ∧
    (readCur dec file bs st p i).2.cache = (readCur dec file bs st st.pid i).2.cache := by
  have h1 : pidCheck st p = { st with fpGen := st.fpGen + 1, pid := p } := by
    rw [pidCheck, if_pos hp]
  have h2 : pidCheck st st.pid = st := by
    rw [pidCheck, if_neg (by simp)]
  refine ⟨by rw [h1], by rw [h1], by rw [h1], by rw [h1], by rw [h1], by rw [h1], ?_, ?_⟩
  · simp only [readCur, h1, h2]
  · simp only [readCur, h1, h2]

theorem c9_witness :
    (7 : Nat) ≠ (RState.mk 0 32 [] [] 5 0).pid ∧
    (pidCheck (RState.mk 0 32 [] [] 5 0) 7).cache = (RState.mk 0 32 [] [] 5 0).cache := by
  refine ⟨by decide, ?_⟩
  exact (c9_fork_reopens_only_handle wDec [] 4 (RState.mk 0 32 [] [] 5 0) 7
    (by decide) 0).1

/-! ## C10: the legacy reader's lazy file handle -/

/-- C10: a successfully constructed legacy `DocSetReader` holds no open
file handle; `close()` is idempotent and a no-op on an already-closed
reader; and because `read` reopens the file lazily whenever the handle is
absent, reading after `close()` behaves exactly as reading before it
(same result, same resulting state). -/
theorem c10_legacy_lazy_handle (dec : List Nat → Option KVDoc)
    (file : List Nat) (bs : Nat) (st r : LState) (i : Nat)
    (hopen : legacyOpen dec file = .ok st) :
    st.fpOpen = false ∧
    legacyClose (legacyClose r) = legacyClose r ∧
    (r.fpOpen = false → legacyClose r = r) ∧
    legacyRead dec file bs (legacyClose r) i = legacyRead dec file bs r i := by
  refine ⟨?_, rfl, ?_, ?_⟩
  · rw [legacyOpen] at hopen
    repeat' split at hopen
    all_goals first
      | (cases hopen; rfl)
      | (exact absurd hopen (by simp))
  · intro h
    cases r
    simp_all [legacyClose]
  · rfl

/-! ## ConcatDocSet lemmas -/

theorem cumSizesFrom_length {α : Type} (dss : List (List α)) :
    ∀ a, (cumSizesFrom a dss).length = dss.length := by
  induction dss with
  | nil => intro a; rfl
  | cons ds rest ih => intro a; simp [cumSizesFrom, ih]

theorem getLastD_irrel {α : Type} (l : List α) (h : l ≠ []) (d d' : α) :
    l.getLastD d = l.getLastD d' := by
  cases l with
  | nil => exact absurd rfl h
  | cons a t => rw [List.getLastD_cons, List.getLastD_cons]

theorem cumSizesFrom_add {α : Type} (dss : List (List α)) :
    ∀ x y, cumSizesFrom (x + y) dss = (cumSizesFrom y dss).map (x + ·) := by
  induction dss with
  | nil => intro x y; rfl
  | cons ds rest ih =>
    intro x y
    simp only [cumSizesFrom, List.map_cons, List.cons.injEq]
    refine ⟨by omega, ?_⟩
    rw [show x + y + ds.length = x + (y + ds.length) by omega, ih]

theorem cumSizes_cons {α : Type} (ds : List α) (rest : List (List α)) :
    cumSizes (ds :: rest) = ds.length :: (cumSizes rest).map (ds.length + ·) := by
  simp only [cumSizes, cumSizesFrom, Nat.zero_add]
  have h := cumSizesFrom_add rest ds.length 0
  rw [Nat.add_zero] at h
  rw [h]

theorem concatLen_sum {α : Type} (dss : List (List α)) (h : dss ≠ []) :
    concatLen dss = (dss.map List.length).sum := by
  suffices h2 : ∀ (dss : List (List α)) (a : Nat), dss ≠ [] →
      (cumSizesFrom a dss).getLastD 0 = a + (dss.map List.length).sum by
    have h3 := h2 dss 0 h
    simpa [concatLen, cumSizes] using h3
  intro dss
  induction dss with
  | nil => intro a h2; exact absurd rfl h2
  | cons ds rest ih =>
    intro a _
    cases rest with
    | nil => simp [cumSizesFrom]
    | cons r2 rs =>
      rw [cumSizesFrom, List.getLastD_cons,
        getLastD_irrel _ (by simp [cumSizesFrom]) _ 0, ih (a + ds.length) (by simp)]
      simp only [List.map_cons, List.sum_cons]
      omega

theorem concatLen_cons {α : Type} (ds : List α) (rest : List (List α)) (h : rest ≠ []) :
    concatLen (ds :: rest) = ds.length + concatLen rest := by
  rw [concatLen_sum _ (by simp), concatLen_sum rest h]
  simp

theorem concatReadCore_head {α : Type} (ds : List α) (rest : List (List α)) (i : Nat)
    (h : i < ds.length) : concatReadCore (ds :: rest) i = listRead ds i := by
  simp only [concatReadCore, cumSizes_cons, List.takeWhile_cons]
  rw [if_neg (by simp; omega)]
  simp

theorem getD_map_add (L : List Nat) (n j : Nat) (hj : j < L.length) :
    (L.map (n + ·)).getD j 0 = n + L.getD j 0 := by
  have hx : L.get? j = some (L.get ⟨j, hj⟩) := List.get?_eq_get hj
  show ((L.map (n + ·)).get? j).getD 0 = n + (L.get? j).getD 0
  rw [List.get?_map, hx]
  rfl

theorem takeWhile_le_map_add (L : List Nat) :
    ∀ (n i : Nat), n ≤ i →
    ((L.map (n + ·)).takeWhile (fun c => c ≤ i)).length =
      (L.takeWhile (fun c => c ≤ i - n)).length := by
  induction L with
  | nil => intro n i _; rfl
  | cons x t ih =>
    intro n i h
    simp only [List.map_cons, List.takeWhile_cons]
    by_cases hx : x ≤ i - n
    · rw [if_pos (by simp; omega), if_pos (by simp; omega)]
      simp [ih n i h]
    · rw [if_neg (by simp; omega), if_neg (by simp; omega)]

theorem takeWhile_len_le (p : Nat → Bool) (l : List Nat) :
    (l.takeWhile p).length ≤ l.length := by
  induction l with
  | nil => simp
  | cons a t ih =>
    rw [List.takeWhile_cons]
    split
    · simpa using ih
    · simp

theorem concatReadCore_shift {α : Type} (ds : List α) (rest : List (List α)) (i : Nat)
    (h : ds.length ≤ i) :
    concatReadCore (ds :: rest) i = concatReadCore rest (i - ds.length) := by
  simp only [concatReadCore, cumSizes_cons, List.takeWhile_cons]
  rw [if_pos (by simp; omega)]
  simp only [List.length_cons, takeWhile_le_map_add (cumSizes rest) ds.length i h]
  have hXle : (List.takeWhile (fun c => decide (c ≤ i - ds.length)) (cumSizes rest)).length ≤
      (cumSizes rest).length := takeWhile_len_le _ _
  generalize hX : (List.takeWhile (fun c => decide (c ≤ i - ds.length)) (cumSizes rest)).length = X at hXle ⊢
  rw [List.get?_cons_succ]
  cases hget : rest.get? X with
  | none => rfl
  | some ds2 =>
    simp only []
    congr 1
    rw [if_neg (Nat.succ_ne_zero X), Nat.add_sub_cancel]
    cases X with
    | zero => simp
    | succ m =>
      rw [if_neg (Nat.succ_ne_zero m), List.getD_cons_succ, getD_map_add _ _ _ (by omega)]
      simp only [Nat.add_sub_cancel]
      omega

/-- Dispatch characterisation of the non-negative read path: for an
in-range index the owning reader is the first one whose cumulative size
strictly exceeds the index, and the local index is the index minus the
previous cumulative size. -/
theorem concat_dispatch {α : Type} :
    ∀ (dss : List (List α)) (i : Nat), i < concatLen dss →
    ∃ k d,
      k < (cumSizes dss).length ∧
      i < (cumSizes dss).getD k 0 ∧
      (∀ j, j < k → (cumSizes dss).getD j 0 ≤ i) ∧
      (dss.getD k []).get?
        (if k = 0 then i else i - (cumSizes dss).getD (k - 1) 0) = some d ∧
      concatReadCore dss i = .ok d := by
  intro dss
  induction dss with
  | nil => intro i hi; simp [concatLen, cumSizes, cumSizesFrom] at hi
  | cons ds rest ih =>
    intro i hi
    by_cases hlt : i < ds.length
    · refine ⟨0, ds.get ⟨i, hlt⟩, ?_, ?_, ?_, ?_, ?_⟩
      · simp [cumSizes_cons]
      · simpa [cumSizes_cons] using hlt
      · intro j hj; omega
      · simpa using List.get?_eq_get hlt
      · rw [concatReadCore_head _ _ _ hlt, listRead, List.get?_eq_get hlt]
    · push_neg at hlt
      have hrne : rest ≠ [] := by
        rintro rfl
        simp [concatLen, cumSizes, cumSizesFrom] at hi
        omega
      have hi' : i - ds.length < concatLen rest := by
        rw [concatLen_cons ds rest hrne] at hi
        omega
      obtain ⟨k', d, hk1, hk2, hk3, hk4, hk5⟩ := ih (i - ds.length) hi'
      refine ⟨k' + 1, d, ?_, ?_, ?_, ?_, ?_⟩
      · simp only [cumSizes_cons, List.length_cons, List.length_map]
        omega
      · rw [cumSizes_cons, List.getD_cons_succ,
          getD_map_add _ _ _ (by simpa using hk1)]
        omega
      · intro j hj
        cases j with
        | zero => simp [cumSizes_cons]; omega
        | succ j' =>
          rw [cumSizes_cons, List.getD_cons_succ,
            getD_map_add _ _ _ (by omega)]
          have := hk3 j' (by omega)
          omega
      · rw [show (ds :: rest).getD (k' + 1) [] = rest.getD k' [] from rfl]
        rw [if_neg (Nat.succ_ne_zero k'), Nat.add_sub_cancel]
        cases hk : k' with
        | zero =>
          rw [cumSizes_cons, List.getD_cons_zero]
          simpa [hk] using hk4
        | succ m =>
          rw [cumSizes_cons, List.getD_cons_succ,
            getD_map_add _ _ _ (by omega)]
          rw [hk] at hk4
          rw [if_neg (Nat.succ_ne_zero m)] at hk4
          rw [show i - (ds.length + (cumSizes rest).getD m 0) =
            i - ds.length - (cumSizes rest).getD (m + 1 - 1) 0 by
              simp only [Nat.add_sub_cancel]; omega]
          exact hk4
      · rw [concatReadCore_shift _ _ _ hlt]
        exact hk5

/-- C6: for a `ConcatDocSet` over readers exposing document lists
`dss`, the length is the sum of the constituent sizes, and every in-range
non-negative `read(i)` dispatches to the first reader whose cumulative size
strictly exceeds `i`, at local index `i` minus the previous cumulative size
(`i` itself for the first reader), returning that reader's document. -/
theorem c6_concat_arithmetic {α : Type} (dss : List (List α)) (hne : dss ≠ []) :
    concatLen dss = (dss.map List.length).sum ∧
    ∀ i : Nat, i < concatLen dss →
      ∃ k d,
        k < (cumSizes dss).length ∧
        i < (cumSizes dss).getD k 0 ∧
        (∀ j, j < k → (cumSizes dss).getD j 0 ≤ i) ∧
        (dss.getD k []).get?
          (if k = 0 then i else i - (cumSizes dss).getD (k - 1) 0) = some d ∧
        concatRead dss (i : Int) = .ok d := by
  refine ⟨concatLen_sum dss hne, ?_⟩
  intro i hi
  obtain ⟨k, d, h1, h2, h3, h4, h5⟩ := concat_dispatch dss i hi
  refine ⟨k, d, h1, h2, h3, h4, ?_⟩
  rw [concatRead, if_neg (by omega)]
  simpa using h5

/-- C6 witness: the concrete sizes-(2,3,1) view of the claim: length 6,
`read(0)` is the first reader's record 0, `read(4)` is the second reader's
record 2. -/
theorem c6_witness :
    concatLen [[10, 11], [20, 21, 22], [30]] =
      (([[10, 11], [20, 21, 22], [30]] : List (List Nat)).map List.length).sum ∧
    concatLen [[10, 11], [20, 21, 22], [30]] = 6 ∧
    concatRead [[10, 11], [20, 21, 22], [30]] 0 = .ok 10 ∧
    concatRead [[10, 11], [20, 21, 22], [30]] 4 = .ok 22 :=
  ⟨(c6_concat_arithmetic [[10, 11], [20, 21, 22], [30]] (by decide)).1, rfl, rfl, rfl⟩

/-! ## C7 support lemmas -/

theorem takeWhile_all (l : List Nat) (p : Nat → Bool) (h : ∀ x ∈ l, p x = true) :
    l.takeWhile p = l := by
  induction l with
  | nil => rfl
  | cons a t ih =>
    rw [List.takeWhile_cons, if_pos (h a (by simp)),
      ih (fun x hx => h x (by simp [hx]))]

theorem cum_mem_le {α : Type} :
    ∀ (dss : List (List α)) (x : Nat), x ∈ cumSizes dss → x ≤ concatLen dss := by
  intro dss
  induction dss with
  | nil => intro x hx; simp [cumSizes, cumSizesFrom] at hx
  | cons ds rest ih =>
    intro x hx
    rw [cumSizes_cons] at hx
    rcases List.mem_cons.mp hx with rfl | hx2
    · by_cases hr : rest = []
      · subst hr; simp [concatLen, cumSizes, cumSizesFrom]
      · rw [concatLen_cons _ _ hr]; omega
    · obtain ⟨c, hc, rfl⟩ := List.mem_map.mp hx2
      have hr : rest ≠ [] := by rintro rfl; simp [cumSizes, cumSizesFrom] at hc
      rw [concatLen_cons _ _ hr]
      have := ih c hc
      omega

theorem concatReadCore_overflow {α : Type} (dss : List (List α)) (j : Nat)
    (hj : concatLen dss ≤ j) : concatReadCore dss j = .error .indexError := by
  have hall : ∀ x ∈ cumSizes dss, decide (x ≤ j) = true := by
    intro x hx
    simp only [decide_eq_true_eq]
    exact le_trans (cum_mem_le dss x hx) hj
  have hlen : (cumSizes dss).length = dss.length := cumSizesFrom_length dss 0
  simp only [concatReadCore, takeWhile_all _ _ hall, hlen,
    List.get?_eq_none.mpr (le_refl dss.length)]

theorem getLastD_mem {α : Type} :
    ∀ (l : List (List α)), l ≠ [] → l.getLastD [] ∈ l := by
  intro l
  induction l with
  | nil => intro h; exact absurd rfl h
  | cons a t ih =>
    intro _
    by_cases ht : t = []
    · subst ht; simp
    · rw [List.getLastD_cons, getLastD_irrel t ht a []]
      exact List.mem_cons_of_mem _ (ih ht)

theorem one_le_concatLen {α : Type} (dss : List (List α)) (hne : dss ≠ [])
    (hlast : dss.getLastD [] ≠ []) : 1 ≤ concatLen dss := by
  rw [concatLen_sum dss hne]
  have hmem : dss.getLastD [] ∈ dss := getLastD_mem dss hne
  have hmem2 : (dss.getLastD []).length ∈ dss.map List.length :=
    List.mem_map_of_mem _ hmem
  have hle := List.single_le_sum (fun y _ => Nat.zero_le y) _ hmem2
  have hpos := List.length_pos.mpr hlast
  omega

theorem concatReadCore_last {α : Type} :
    ∀ (dss : List (List α)), dss ≠ [] → dss.getLastD [] ≠ [] →
    ∃ d, (dss.getLastD []).getLast? = some d ∧
      concatReadCore dss (concatLen dss - 1) = .ok d := by
  intro dss
  induction dss with
  | nil => intro h; exact absurd rfl h
  | cons ds rest ih =>
    intro _ hlast
    by_cases hr : rest = []
    · subst hr
      have hds : ds ≠ [] := by simpa using hlast
      have hpos : 0 < ds.length := List.length_pos.mpr hds
      have hlen : concatLen [ds] = ds.length := by
        simp [concatLen, cumSizes, cumSizesFrom]
      refine ⟨ds.getLast hds, ?_, ?_⟩
      · simpa using List.getLast?_eq_getLast ds hds
      · rw [hlen, concatReadCore_head _ _ _ (by omega), listRead,
          ← List.getLast?_eq_get?, List.getLast?_eq_getLast ds hds]
    · have hlast2 : rest.getLastD [] ≠ [] := by
        rw [List.getLastD_cons, getLastD_irrel rest hr ds []] at hlast
        exact hlast
      obtain ⟨d, hd, hcore⟩ := ih hr hlast2
      have h1 : 1 ≤ concatLen rest := one_le_concatLen rest hr hlast2
      refine ⟨d, ?_, ?_⟩
      · rw [List.getLastD_cons, getLastD_irrel rest hr ds []]
        exact hd
      · rw [concatLen_cons _ _ hr,
          show ds.length + concatLen rest - 1 = ds.length + (concatLen rest - 1) by omega,
          concatReadCore_shift _ _ _ (by omega),
          show ds.length + (concatLen rest - 1) - ds.length = concatLen rest - 1 by omega]
        exact hcore

/-- C7: `ConcatDocSet.read` remaps every negative in-range `i` to
`len() + i` (so `read(-1)` is the last reader's last record whenever that
reader is non-empty), and every index with `|i| > len()` is reported as a
range error (`ValueError` for negative overflow, `IndexError` for positive
overflow) — both distinct from the decode-failure error. -/
theorem c7_negative_indexing {α : Type} (dss : List (List α)) (hne : dss ≠ []) :
    (∀ i : Int, i < 0 → -i ≤ (concatLen dss : Int) →
      concatRead dss i = concatReadCore dss ((concatLen dss : Int) + i).toNat) ∧
    (∀ i : Int, (concatLen dss : Int) < -i →
      concatRead dss i =
        .error (.valueError "absolute value of index should not exceed dataset length")) ∧
    (∀ i : Int, (concatLen dss : Int) < i → concatRead dss i = .error .indexError) ∧
    (∀ msg, PyErr.valueError msg ≠ PyErr.invalidBSON ∧
      PyErr.indexError ≠ PyErr.invalidBSON) ∧
    (dss.getLastD [] ≠ [] →
      ∃ d, (dss.getLastD []).getLast? = some d ∧ concatRead dss (-1) = .ok d) := by
  refine ⟨?_, ?_, ?_, fun msg => ⟨by simp, by simp⟩, ?_⟩
  · intro i h1 h2
    rw [concatRead, if_pos h1, if_neg (by omega)]
  · intro i h
    rw [concatRead, if_pos (by omega), if_pos (by omega)]
  · intro i h
    rw [concatRead, if_neg (by omega)]
    apply concatReadCore_overflow
    omega
  · intro hlast
    have h1 : 1 ≤ concatLen dss := one_le_concatLen dss hne hlast
    obtain ⟨d, hd, hcore⟩ := concatReadCore_last dss hne hlast
    refine ⟨d, hd, ?_⟩
    rw [concatRead, if_pos (by omega), if_neg (by omega),
      show ((concatLen dss : Int) + (-1)).toNat = concatLen dss - 1 by omega]
    exact hcore

theorem c7_witness :
    ([[10, 11], [20, 21, 22], [30]] : List (List Nat)).getLastD [] ≠ [] ∧
    concatRead [[10, 11], [20, 21, 22], [30]] (-1) = .ok 30 ∧
    concatRead [[10, 11], [20, 21, 22], [30]] (-8) =
      .error (.valueError "absolute value of index should not exceed dataset length") := by
  refine ⟨by decide, ?_, ?_⟩
  · obtain ⟨d, hd, hc⟩ :=
      (c7_negative_indexing [[10, 11], [20, 21, 22], [30]] (by decide)).2.2.2.2 (by decide)
    have hd30 : (30 : Nat) = d := by simpa using hd
    rw [← hd30] at hc
    exact hc
  · exact (c7_negative_indexing [[10, 11], [20, 21, 22], [30]] (by decide)).2.1 (-8) (by decide)

/-! ## C8: legacy metadata overflow -/

/-- C8: when the legacy head document including user metadata does not fit
in the head region (`head_size` minus the 8-byte length prefix) while the
reserved keys alone do, the writer silently encodes the reserved keys alone
— dropping all user metadata without failing — and a legacy reader of the
resulting file succeeds, exposing empty user metadata after stripping the
reserved keys. -/
theorem c8_legacy_metadata_overflow (enc : KVDoc → List Nat)
    (dec : List Nat → Option KVDoc) (head_size : Nat) (docs : List KVDoc)
    (meta : KVDoc)
    (hover : head_size < 8 + (enc (pyDictMerge
      (legacyBasicDoc head_size docs.length
        (head_size + (docsBody enc docs).length)) meta)).length)
    (hfit : 8 + (enc (legacyBasicDoc head_size docs.length
      (head_size + (docsBody enc docs).length))).length ≤ head_size)
    (hmax : (enc (legacyBasicDoc head_size docs.length
      (head_size + (docsBody enc docs).length))).length ≤ MAX_HEAD_SIZE)
    (hdec : dec (enc (legacyBasicDoc head_size docs.length
      (head_size + (docsBody enc docs).length))) =
        some (legacyBasicDoc head_size docs.length
          (head_size + (docsBody enc docs).length))) :
    legacyHeadDoc enc head_size docs meta =
      legacyBasicDoc head_size docs.length
        (head_size + (docsBody enc docs).length) ∧
    ∃ st, legacyOpen dec (legacyWriterFile enc head_size docs meta) = .ok st ∧
      st.meta_doc = [] ∧ st.count = docs.length ∧ st.fpOpen = false := by
  set basic := legacyBasicDoc head_size docs.length
    (head_size + (docsBody enc docs).length) with hbasic
  have hhd : legacyHeadDoc enc head_size docs meta = basic := by
    rw [legacyHeadDoc, ← hbasic]
    rw [if_neg (by omega)]
  refine ⟨hhd, ?_⟩
  have hfile : legacyWriterFile enc head_size docs meta =
      [] ++ packU64 (enc basic).length ++
        (enc basic ++ (List.replicate (head_size - (8 + (enc basic).length)) 0 ++
          (docsBody enc docs ++ packList (docPositions enc head_size docs)))) := by
    rw [legacyWriterFile, hhd]
    simp [List.append_assoc]
  have hsz : (enc basic).length < 2 ^ 64 := by
    have : MAX_HEAD_SIZE < 2 ^ 64 := by decide
    omega
  have hread : readU64 (legacyWriterFile enc head_size docs meta) 0 =
      .ok (enc basic).length := by
    rw [hfile]
    exact readU64_at [] _ _ hsz
  have hlen : (enc basic).length ≤ (legacyWriterFile enc head_size docs meta).length := by
    rw [hfile]
    simp [packU64_length]
    omega
  have hslice : ((legacyWriterFile enc head_size docs meta).drop 8).take
      (enc basic).length = enc basic := by
    rw [hfile, List.nil_append,
      show (8 : Nat) = (packU64 (enc basic).length).length from rfl,
      List.drop_left, List.take_left]
  have hl1 : basic.lookup "__HDS__" = some (.vint head_size) := by
    simp [hbasic, legacyBasicDoc, List.lookup]
  have hl2 : basic.lookup "__CNT__" = some (.vint docs.length) := by
    simp [hbasic, legacyBasicDoc, List.lookup]
  have hl3 : basic.lookup "__IDX__" =
      some (.vint (head_size + (docsBody enc docs).length)) := by
    simp [hbasic, legacyBasicDoc, List.lookup]
  simp only [legacyOpen, hread]
  rw [if_neg (by push_neg; exact ⟨hmax, hlen⟩)]
  simp only [hslice, hdec, hl1, hl2, hl3]
  rw [if_neg (by omega)]
  refine ⟨_, rfl, ?_, ?_, rfl⟩
  · simp [stripReserved, hbasic, legacyBasicDoc]
  · simp

theorem c8_witness :
    lEncW (pyDictMerge lBasicW lMetaW) = List.replicate 600 0 ∧
    legacyHeadDoc lEncW 512 [] lMetaW = lBasicW ∧
    ∃ st, legacyOpen lDecW (legacyWriterFile lEncW 512 [] lMetaW) = .ok st ∧
      st.meta_doc = [] ∧ st.count = 0 ∧ st.fpOpen = false := by
  have h := c8_legacy_metadata_overflow lEncW lDecW 512 [] lMetaW
    (by decide) (by decide) (by decide) (by decide)
  exact ⟨by decide, h.1, h.2⟩

/-! ## Array codec lemmas -/

theorem digitsOf_mem (n : Nat) : ∀ d ∈ digitsOf n, 48 ≤ d ∧ d ≤ 57 := by
  induction n using Nat.strong_induction_on with
  | _ n ih =>
    rw [digitsOf]
    split
    · intro d hd
      simp at hd
      omega
    · intro d hd
      rw [List.mem_append] at hd
      rcases hd with hd | hd
      · exact ih (n / 10) (Nat.div_lt_self (by omega) (by omega)) d hd
      · simp at hd; omega

theorem digitsOf_ne_nil (n : Nat) : digitsOf n ≠ [] := by
  rw [digitsOf]
  split <;> simp

theorem digitsOf_foldl (n : Nat) : ∀ acc : Nat,
    (digitsOf n).foldl (fun acc d => 10 * acc + (d - 48)) acc =
      acc * 10 ^ (digitsOf n).length + n := by
  induction n using Nat.strong_induction_on with
  | _ n ih =>
    intro acc
    rw [digitsOf]
    split
    · simp only [List.foldl_cons, List.foldl_nil, List.length_cons, List.length_nil,
        pow_one, Nat.zero_add]
      omega
    · rename_i h
      rw [List.foldl_append, ih (n / 10) (Nat.div_lt_self (by omega) (by omega)) acc]
      simp only [List.foldl_cons, List.foldl_nil, List.length_append, List.length_cons,
        List.length_nil, Nat.zero_add, pow_succ]
      have e : acc * (10 ^ (digitsOf (n / 10)).length * 10) =
          10 * (acc * 10 ^ (digitsOf (n / 10)).length) := by ring
      rw [e]
      generalize acc * 10 ^ (digitsOf (n / 10)).length = A
      omega

theorem digitsOf_not_ws (n : Nat) : ∀ x ∈ digitsOf n, isPyWS x = false := by
  intro x hx
  have := digitsOf_mem n x hx
  simp [isPyWS]
  omega

theorem dropWhile_no_ws (l : List Nat) (h : ∀ x ∈ l, isPyWS x = false) :
    l.dropWhile isPyWS = l := by
  cases l with
  | nil => rfl
  | cons a t =>
    rw [List.dropWhile_cons, if_neg (by rw [h a (by simp)]; simp)]

theorem stripWS_of_no_ws (l : List Nat) (h : ∀ x ∈ l, isPyWS x = false) :
    stripWS l = l := by
  rw [stripWS, dropWhile_no_ws l h,
    dropWhile_no_ws _ (fun x hx => h x (List.mem_reverse.mp hx)),
    List.reverse_reverse]

theorem stripWS_space (l : List Nat) : stripWS (32 :: l) = stripWS l := by
  rw [stripWS, stripWS, List.dropWhile_cons, if_pos (by simp [isPyWS])]

theorem splitOnByte_no_sep (sep : Nat) (l : List Nat) (h : sep ∉ l) :
    splitOnByte sep l = [l] := by
  induction l with
  | nil => rfl
  | cons b t ih =>
    rw [splitOnByte, if_neg (by simp at h; tauto)]
    rw [ih (by simp at h; tauto)]

theorem splitOnByte_append (sep : Nat) (B : List Nat) :
    ∀ A : List Nat, sep ∉ A →
    splitOnByte sep (A ++ sep :: B) = A :: splitOnByte sep B := by
  intro A
  induction A with
  | nil => intro _; rw [List.nil_append, splitOnByte, if_pos rfl]
  | cons a t ih =>
    intro h
    rw [List.cons_append, splitOnByte, if_neg (by simp at h; tauto)]
    rw [ih (by simp at h; tauto)]

theorem digitBodyOK_digitsOf (n : Nat) : digitBodyOK (digitsOf n) = true := by
  rw [digitBodyOK, splitOnByte_no_sep 95 _ (by
    intro h
    have := digitsOf_mem n 95 h
    omega)]
  simp only [List.all_cons, List.all_nil, Bool.and_true]
  rw [Bool.and_eq_true]
  constructor
  · simp [digitsOf_ne_nil n]
  · rw [List.all_eq_true]
    intro x hx
    have := digitsOf_mem n x hx
    simp [isDigitByte]
    omega

theorem digitBodyVal_digitsOf (n : Nat) : digitBodyVal (digitsOf n) = n := by
  rw [digitBodyVal]
  rw [List.filter_eq_self.mpr (by
    intro x hx
    have := digitsOf_mem n x hx
    simp [isDigitByte]
    omega)]
  rw [digitsOf_foldl n 0]
  simp

theorem digitsOf_head_digit (n : Nat) :
    ∃ d t, digitsOf n = d :: t ∧ 48 ≤ d ∧ d ≤ 57 := by
  cases hd : digitsOf n with
  | nil => exact absurd hd (digitsOf_ne_nil n)
  | cons d t =>
    have := digitsOf_mem n d (by rw [hd]; simp)
    exact ⟨d, t, rfl, this.1, this.2⟩

theorem pyIntParse_digitsOf (n : Nat) : pyIntParse (digitsOf n) = some n := by
  have hstrip : stripWS (digitsOf n) = digitsOf n :=
    stripWS_of_no_ws _ (digitsOf_not_ws n)
  obtain ⟨d, t, hdt, hd1, hd2⟩ := digitsOf_head_digit n
  simp only [pyIntParse, hstrip]
  rw [if_neg (by rw [hdt]; simp; omega), if_neg (by rw [hdt]; simp; omega),
    if_pos (digitBodyOK_digitsOf n), digitBodyVal_digitsOf n]
  simp

theorem pyIntParse_space_digitsOf (n : Nat) :
    pyIntParse (32 :: digitsOf n) = some n := by
  have hstrip : stripWS (32 :: digitsOf n) = digitsOf n := by
    rw [stripWS_space, stripWS_of_no_ws _ (digitsOf_not_ws n)]
  obtain ⟨d, t, hdt, hd1, hd2⟩ := digitsOf_head_digit n
  simp only [pyIntParse, hstrip]
  rw [if_neg (by rw [hdt]; simp; omega), if_neg (by rw [hdt]; simp; omega),
    if_pos (digitBodyOK_digitsOf n), digitBodyVal_digitsOf n]
  simp

theorem shapeInner_mem : ∀ (s : List Nat), ∀ x ∈ shapeInner s,
    (48 ≤ x ∧ x ≤ 57) ∨ x = 44 ∨ x = 32 := by
  intro s
  induction s with
  | nil => simp [shapeInner]
  | cons n rest ih =>
    cases rest with
    | nil =>
      intro x hx
      simp only [shapeInner] at hx
      exact Or.inl (digitsOf_mem n x hx)
    | cons r2 rs =>
      intro x hx
      simp only [shapeInner] at hx
      rw [List.mem_append] at hx
      rcases hx with hx | hx
      · exact Or.inl (digitsOf_mem n x hx)
      · rcases List.mem_cons.mp hx with rfl | hx2
        · exact Or.inr (Or.inl rfl)
        · rcases List.mem_cons.mp hx2 with rfl | hx3
          · exact Or.inr (Or.inr rfl)
          · exact ih x hx3

theorem shapeBody_mem (s : List Nat) : ∀ x ∈ shapeBody s,
    (48 ≤ x ∧ x ≤ 57) ∨ x = 44 ∨ x = 32 := by
  cases s with
  | nil => simp [shapeBody, shapeInner]
  | cons n rest =>
    cases rest with
    | nil =>
      intro x hx
      simp only [shapeBody] at hx
      rw [List.mem_append] at hx
      rcases hx with hx | hx
      · exact Or.inl (digitsOf_mem n x hx)
      · simp at hx
        exact Or.inr (Or.inl hx)
    | cons r2 rs =>
      intro x hx
      exact shapeInner_mem (n :: r2 :: rs) x hx

theorem shapeBody_no_paren (s : List Nat) : 40 ∉ shapeBody s ∧ 41 ∉ shapeBody s := by
  constructor
  · intro h
    rcases shapeBody_mem s 40 h with h2 | h2 | h2 <;> omega
  · intro h
    rcases shapeBody_mem s 41 h with h2 | h2 | h2 <;> omega

theorem shapeRepr_eq (s : List Nat) : shapeRepr s = 40 :: shapeBody s ++ [41] := by
  cases s with
  | nil => rfl
  | cons n rest =>
    cases rest with
    | nil => simp [shapeRepr, shapeBody]
    | cons r2 rs => rfl

theorem lookup_mem_keys {α β : Type} [BEq α] [LawfulBEq α] :
    ∀ (l : List (α × β)) (a : α) (b : β),
    List.lookup a l = some b → a ∈ l.map Prod.fst := by
  intro l
  induction l with
  | nil => intro a b h; cases h
  | cons p t ih =>
    intro a b h
    rw [List.lookup] at h
    by_cases hab : a == p.1
    · simp only [List.map_cons, List.mem_cons]
      exact Or.inl (eq_of_beq hab)
    · rw [Bool.not_eq_true] at hab
      rw [hab] at h
      simp only [List.map_cons, List.mem_cons]
      exact Or.inr (ih a b h)

theorem dtypeSize_no_paren (s : List Nat) (k : Nat) (h : dtypeSize s = some k) :
    40 ∉ s ∧ 41 ∉ s := by
  have hmem := lookup_mem_keys DTYPE_TABLE s k h
  have hall : ∀ x ∈ DTYPE_TABLE.map Prod.fst, 40 ∉ x ∧ 41 ∉ x := by decide
  exact hall s hmem

theorem findIdx_append_acc (b : Nat) (B : List Nat) :
    ∀ (A : List Nat) (i : Nat), b ∉ A →
    (A ++ b :: B).findIdx? (fun x => x == b) i = some (i + A.length) := by
  intro A
  induction A with
  | nil => intro i _; simp [List.findIdx?_cons]
  | cons a t ih =>
    intro i h
    rw [List.cons_append, List.findIdx?_cons,
      if_neg (by simp at h ⊢; tauto), ih (i + 1) (by simp at h; tauto)]
    congr 1
    simp
    omega

theorem pyFindFrom_zero (A B : List Nat) (b : Nat) (h : b ∉ A) :
    pyFindFrom (A ++ b :: B) b 0 = (A.length : Int) := by
  rw [pyFindFrom, List.drop_zero, findIdx_append_acc b B A 0 h]
  simp

theorem pyFindFrom_start (C A B : List Nat) (b : Nat) (h : b ∉ A) :
    pyFindFrom (C ++ (A ++ b :: B)) b C.length = ((C.length + A.length : Nat) : Int) := by
  rw [pyFindFrom, List.drop_left, findIdx_append_acc b B A 0 h]
  simp

theorem pySliceTo_prefix (A B : List Nat) :
    pySliceTo (A ++ B) (A.length : Int) = A := by
  rw [pySliceTo, pyIdx, if_neg (by omega)]
  rw [show ((A.length : Int)).toNat = A.length by omega,
    min_eq_left (by simp), List.take_left]

theorem pySlice_extract (P X S : List Nat) :
    pySlice (P ++ X ++ S) (P.length : Int) ((P.length + X.length : Nat) : Int) = X := by
  rw [pySlice, pyIdx, pyIdx, if_neg (by omega), if_neg (by omega)]
  rw [show (((P.length + X.length : Nat) : Int)).toNat = P.length + X.length by omega,
    show ((P.length : Int)).toNat = P.length by omega]
  rw [min_eq_left (by simp [List.length_append]),
    min_eq_left (by simp [List.length_append])]
  rw [show P.length + X.length = (P ++ X).length by simp, List.take_left,
    List.drop_left]

theorem pySliceFrom_suffix (P S : List Nat) :
    pySliceFrom (P ++ S) (P.length : Int) = S := by
  rw [pySliceFrom, pyIdx, if_neg (by omega)]
  rw [show ((P.length : Int)).toNat = P.length by omega,
    min_eq_left (by simp), List.drop_left]

theorem digitsOf_no44 (n : Nat) : (44 : Nat) ∉ digitsOf n := by
  intro h
  have := digitsOf_mem n 44 h
  omega

theorem parse_inner_space : ∀ (s : List Nat), s ≠ [] →
    ((splitOnByte 44 (32 :: shapeInner s)).filter (fun t => t ≠ [])).mapM pyIntParse
      = some (s.map Int.ofNat) := by
  intro s
  induction s with
  | nil => intro h; exact absurd rfl h
  | cons n rest ih =>
    intro _
    cases rest with
    | nil =>
      rw [show shapeInner [n] = digitsOf n from rfl]
      rw [splitOnByte_no_sep 44 (32 :: digitsOf n) (by
        simp only [List.mem_cons, not_or]
        exact ⟨by omega, digitsOf_no44 n⟩)]
      rw [List.filter_cons, if_pos (by simp), List.filter_nil]
      simp only [List.mapM_cons, List.mapM_nil, pyIntParse_space_digitsOf n]
      simp
    | cons r2 rs =>
      rw [show shapeInner (n :: r2 :: rs) =
        digitsOf n ++ 44 :: 32 :: shapeInner (r2 :: rs) from rfl]
      rw [show (32 :: (digitsOf n ++ 44 :: 32 :: shapeInner (r2 :: rs))) =
        (32 :: digitsOf n) ++ 44 :: (32 :: shapeInner (r2 :: rs)) by simp]
      rw [splitOnByte_append 44 _ _ (by
        simp only [List.mem_cons, not_or]
        exact ⟨by omega, digitsOf_no44 n⟩)]
      rw [List.filter_cons, if_pos (by simp)]
      simp only [List.mapM_cons, pyIntParse_space_digitsOf n, ih (by simp)]
      rfl

theorem parse_shapeBody (s : List Nat) :
    ((splitOnByte 44 (shapeBody s)).filter (fun t => t ≠ [])).mapM pyIntParse
      = some (s.map Int.ofNat) := by
  cases s with
  | nil => rfl
  | cons n rest =>
    cases rest with
    | nil =>
      rw [show shapeBody [n] = digitsOf n ++ 44 :: [] from rfl]
      rw [splitOnByte_append 44 [] _ (digitsOf_no44 n)]
      rw [show splitOnByte 44 [] = [[]] from rfl]
      rw [List.filter_cons, if_pos (by simp [digitsOf_ne_nil n])]
      rw [List.filter_cons, if_neg (by simp), List.filter_nil]
      simp only [List.mapM_cons, List.mapM_nil, pyIntParse_digitsOf n]
      rfl
    | cons r2 rs =>
      rw [show shapeBody (n :: r2 :: rs) =
        digitsOf n ++ 44 :: (32 :: shapeInner (r2 :: rs)) from rfl]
      rw [splitOnByte_append 44 _ _ (digitsOf_no44 n)]
      rw [List.filter_cons, if_pos (by simp [digitsOf_ne_nil n])]
      simp only [List.mapM_cons, pyIntParse_digitsOf n,
        parse_inner_space (r2 :: rs) (by simp)]
      rfl

/-- Decoding the header of an encoded array recovers the dtype tag, the
shape dimensions, and the raw data bytes. -/
theorem parseNdarrayHeader_encode (a : NDArray) (esz : Nat)
    (hdt : dtypeSize a.dtype = some esz) :
    parseNdarrayHeader (encode_ndarray a) =
      (a.dtype, some (a.shape.map Int.ofNat), a.data) := by
  obtain ⟨h40, _⟩ := dtypeSize_no_paren a.dtype esz hdt
  have hb41 : 41 ∉ shapeBody a.shape := (shapeBody_no_paren a.shape).2
  have hdata : encode_ndarray a =
      a.dtype ++ 40 :: (shapeBody a.shape ++ 41 :: a.data) := by
    rw [encode_ndarray, shapeRepr_eq]
    simp
  have hfind1 : pyFindFrom (encode_ndarray a) 40 0 = (a.dtype.length : Int) := by
    rw [hdata]
    exact pyFindFrom_zero _ _ 40 h40
  have hfind2 : pyFindFrom (encode_ndarray a) 41 (a.dtype.length + 1) =
      ((a.dtype.length + 1 + (shapeBody a.shape).length : Nat) : Int) := by
    have e : encode_ndarray a =
        (a.dtype ++ [40]) ++ (shapeBody a.shape ++ 41 :: a.data) := by
      rw [hdata]; simp
    have h := pyFindFrom_start (a.dtype ++ [40]) (shapeBody a.shape) a.data 41 hb41
    rw [← e] at h
    simpa using h
  have hslice1 : pySliceTo (encode_ndarray a) ((a.dtype.length : Nat) : Int) = a.dtype := by
    rw [hdata]
    exact pySliceTo_prefix a.dtype _
  have hslice2 : pySlice (encode_ndarray a)
      (((a.dtype.length + 1 : Nat) : Nat) : Int)
      ((a.dtype.length + 1 + (shapeBody a.shape).length : Nat) : Int) =
      shapeBody a.shape := by
    have e : encode_ndarray a =
        (a.dtype ++ [40]) ++ shapeBody a.shape ++ (41 :: a.data) := by
      rw [hdata]; simp
    have h := pySlice_extract (a.dtype ++ [40]) (shapeBody a.shape) (41 :: a.data)
    rw [← e] at h
    simpa using h
  have hslice3 : pySliceFrom (encode_ndarray a)
      ((a.dtype.length + 1 + (shapeBody a.shape).length + 1 : Nat) : Int) = a.data := by
    have e : encode_ndarray a =
        (a.dtype ++ 40 :: shapeBody a.shape ++ [41]) ++ a.data := by
      rw [hdata]; simp
    have h := pySliceFrom_suffix (a.dtype ++ 40 :: shapeBody a.shape ++ [41]) a.data
    rw [← e] at h
    simpa [List.length_append, Nat.add_comm, Nat.add_assoc, Nat.add_left_comm] using h
  rw [parseNdarrayHeader, hfind1]
  rw [show ((a.dtype.length : Int) + 1).toNat = a.dtype.length + 1 by omega]
  rw [hfind2]
  rw [show ((a.dtype.length : Int) + 1) = ((a.dtype.length + 1 : Nat) : Int) by omega]
  rw [hslice1, hslice2]
  rw [show (((a.dtype.length + 1 + (shapeBody a.shape).length : Nat) : Int) + 1) =
    ((a.dtype.length + 1 + (shapeBody a.shape).length + 1 : Nat) : Int) by omega]
  rw [hslice3, parse_shapeBody]

/-- C4: the array codec round-trips without aliasing — for every array
whose dtype tag is recognised and whose byte buffer has the exact length
`element_size * product(shape)` (rank 0, 1 and ≥ 2 alike),
`decode_ndarray (encode_ndarray a)` reproduces the dtype tag, shape and
element bytes exactly, and the decoded array is an owned copy
(`np.array`), never a view over the input buffer. -/
theorem c4_array_roundtrip (a : NDArray) (esz : Nat)
    (hdt : dtypeSize a.dtype = some esz)
    (hlen : a.data.length = esz * natProd a.shape) :
    decode_ndarray (encode_ndarray a) = .ok ⟨a.dtype, a.shape, a.data, true⟩ ∧
    (NDArray.owned ⟨a.dtype, a.shape, a.data, true⟩) = true := by
  refine ⟨?_, rfl⟩
  rw [decode_ndarray, parseNdarrayHeader_encode a esz hdt]
  simp only [np_ndarray, hdt]
  rw [if_neg (by simp)]
  have hmap : (a.shape.map Int.ofNat).map Int.toNat = a.shape := by
    rw [List.map_map]
    have hcomp : (Int.toNat ∘ Int.ofNat) = id := by
      funext n
      simp
    rw [hcomp, List.map_id]
  rw [hmap]
  rw [if_neg (by omega), ← hlen, List.take_length]
  rfl

theorem c4_witness :
    dtypeSize (asc "<f4") = some 4 ∧
    decode_ndarray (encode_ndarray ⟨asc "<f4", [], [9, 9, 9, 9], false⟩) =
      .ok ⟨asc "<f4", [], [9, 9, 9, 9], true⟩ ∧
    decode_ndarray (encode_ndarray ⟨asc "|u1", [3], [5, 6, 7], true⟩) =
      .ok ⟨asc "|u1", [3], [5, 6, 7], true⟩ ∧
    decode_ndarray (encode_ndarray ⟨asc "<i2", [2, 3], List.replicate 12 7, false⟩) =
      .ok ⟨asc "<i2", [2, 3], List.replicate 12 7, true⟩ :=
  ⟨by decide,
   (c4_array_roundtrip ⟨asc "<f4", [], [9, 9, 9, 9], false⟩ 4 (by decide) (by decide)).1,
   (c4_array_roundtrip ⟨asc "|u1", [3], [5, 6, 7], true⟩ 1 (by decide) (by decide)).1,
   (c4_array_roundtrip ⟨asc "<i2", [2, 3], List.replicate 12 7, false⟩ 2
     (by decide) (by decide)).1⟩

/-! ## C3: decode-time length validation -/

/-- C3 counterexample: appending an extra byte to a well-formed encoding
leaves a remaining buffer of length 3 where `element_size * product(shape)`
is `1 * 2 = 2`, yet `decode_ndarray` raises no error: the mismatching (too
long) buffer is accepted and the excess byte silently ignored, refuting
"raises a decoding error whenever the byte buffer remaining ... does not
have length exactly element_size * product(shape)". -/
theorem c3_counterexample :
    parseNdarrayHeader (asc "|u1(2,)" ++ [3, 4, 9]) =
      (asc "|u1", some [2], [3, 4, 9]) ∧
    dtypeSize (asc "|u1") = some 1 ∧
    ([3, 4, 9] : List Nat).length ≠ 1 * natProd [2] ∧
    decode_ndarray (asc "|u1(2,)" ++ [3, 4, 9]) =
      .ok ⟨asc "|u1", [2], [3, 4], true⟩ :=
  ⟨by decide, by decide, by decide, rfl⟩

/-- C3 (amended): `decode_ndarray` raises a decoding error whenever the
type tag is unrecognised, and whenever the remaining byte buffer is
SHORTER than `element_size * product(shape)`; a longer buffer is accepted,
only its first `element_size * product(shape)` bytes being used (see the
counterexample). -/
theorem c3_short_buffer_or_bad_tag_rejected (data dtype : List Nat)
    (dims : List Int) (buffer : List Nat)
    (hparse : parseNdarrayHeader data = (dtype, some dims, buffer)) :
    (dtypeSize dtype = none →
      decode_ndarray data = .error (.typeError "data type not understood")) ∧
    (∀ esz, dtypeSize dtype = some esz →
      (∀ d ∈ dims, 0 ≤ d) →
      buffer.length < esz * natProd (dims.map Int.toNat) →
      decode_ndarray data =
        .error (.typeError "buffer is too small for requested array")) := by
  constructor
  · intro hnone
    rw [decode_ndarray, hparse]
    simp only [np_ndarray, hnone]
    rfl
  · intro esz hesz hnn hlt
    rw [decode_ndarray, hparse]
    simp only [np_ndarray, hesz]
    rw [if_neg (by
      simp only [List.any_eq_true, not_exists, not_and, decide_eq_true_eq]
      intro d hd
      have := hnn d hd
      omega)]
    rw [if_pos hlt]
    rfl

theorem c3_witness :
    parseNdarrayHeader (asc "xx(2,)") = (asc "xx", some [2], []) ∧
    dtypeSize (asc "xx") = none ∧
    decode_ndarray (asc "xx(2,)") = .error (.typeError "data type not understood") ∧
    parseNdarrayHeader (asc "|u1(2,)" ++ [3]) = (asc "|u1", some [2], [3]) ∧
    decode_ndarray (asc "|u1(2,)" ++ [3]) =
      .error (.typeError "buffer is too small for requested array") := by
  refine ⟨by decide, by decide, ?_, by decide, ?_⟩
  · exact (c3_short_buffer_or_bad_tag_rejected (asc "xx(2,)") (asc "xx") [2] []
      (by decide)).1 (by decide)
  · exact (c3_short_buffer_or_bad_tag_rejected (asc "|u1(2,)" ++ [3]) (asc "|u1") [2] [3]
      (by decide)).2 1 (by decide) (by decide) (by decide)

/-! ## Current-format writer/reader lemmas (C1) -/

theorem getD_set_self (l : List Nat) (i v d : Nat) (h : i < l.length) :
    (l.set i v).getD i d = v := by
  rw [List.getD_eq_getElem?_getD, List.getElem?_set_eq_of_lt v h]
  rfl

theorem getD_set_ne (l : List Nat) (i j v d : Nat) (h : i ≠ j) :
    (l.set i v).getD j d = l.getD j d := by
  rw [List.getD_eq_getElem?_getD, List.getElem?_set_ne h, ← List.getD_eq_getElem?_getD]

theorem getD_mem {α : Type} (l : List α) (j : Nat) (h : j < l.length) (d : α) :
    l.getD j d ∈ l := by
  rw [List.getD_eq_getElem?_getD, List.getElem?_eq_getElem h]
  exact List.getElem_mem h

theorem packList_length : ∀ l : List Nat, (packList l).length = 8 * l.length := by
  intro l
  induction l with
  | nil => rfl
  | cons x t ih => simp [packList, packU64_length, ih]; omega

theorem docPositions_length (enc : KVDoc → List Nat) :
    ∀ (docs : List KVDoc) (p : Nat), (docPositions enc p docs).length = docs.length := by
  intro docs
  induction docs with
  | nil => intro p; rfl
  | cons d rest ih => intro p; simp [docPositions, ih]

theorem docsBody_length_ge (enc : KVDoc → List Nat) :
    ∀ docs : List KVDoc, 8 * docs.length ≤ (docsBody enc docs).length := by
  intro docs
  induction docs with
  | nil => simp [docsBody]
  | cons d rest ih =>
    simp only [docsBody, List.length_append, List.length_cons, packU64_length]
    omega

theorem encLen_le_body (enc : KVDoc → List Nat) :
    ∀ (docs : List KVDoc) (d : KVDoc), d ∈ docs →
    (enc d).length ≤ (docsBody enc docs).length := by
  intro docs
  induction docs with
  | nil => intro d h; cases h
  | cons d0 rest ih =>
    intro d h
    rcases List.mem_cons.mp h with rfl | h2
    · simp [docsBody]
      omega
    · have := ih d h2
      simp only [docsBody, List.length_append, packU64_length]
      omega

theorem docPositions_mem_le (enc : KVDoc → List Nat) :
    ∀ (docs : List KVDoc) (p x : Nat), x ∈ docPositions enc p docs →
    x + 8 ≤ p + (docsBody enc docs).length := by
  intro docs
  induction docs with
  | nil => intro p x h; cases h
  | cons d rest ih =>
    intro p x h
    rcases List.mem_cons.mp h with rfl | h2
    · simp only [docsBody, List.length_append, List.length_cons, packU64_length]
      omega
    · have := ih (p + 8 + (enc d).length) x h2
      simp only [docsBody, List.length_append, packU64_length]
      omega

theorem packList_readU64 : ∀ (l : List Nat) (j : Nat) (A B : List Nat),
    j < l.length → (∀ x ∈ l, x < 2 ^ 64) →
    readU64 (A ++ packList l ++ B) (A.length + 8 * j) = .ok (l.getD j 0) := by
  intro l
  induction l with
  | nil => intro j A B hj _; simp at hj
  | cons x t ih =>
    intro j A B hj hx
    cases j with
    | zero =>
      rw [show packList (x :: t) = packU64 x ++ packList t from rfl]
      rw [show A ++ (packU64 x ++ packList t) ++ B =
        A ++ packU64 x ++ (packList t ++ B) by simp]
      rw [show A.length + 8 * 0 = A.length by omega]
      exact readU64_at A _ x (hx x (by simp))
    | succ j' =>
      rw [show packList (x :: t) = packU64 x ++ packList t from rfl]
      rw [show A ++ (packU64 x ++ packList t) ++ B =
        (A ++ packU64 x) ++ packList t ++ B by simp]
      rw [show A.length + 8 * (j' + 1) = (A ++ packU64 x).length + 8 * j' by
        simp [packU64_length]; omega]
      rw [ih j' (A ++ packU64 x) B (by simpa using hj) (fun y hy => hx y (by simp [hy]))]
      rfl

/-- Reading the length prefix and bytes of document `j` at its captured
position inside the document stream. -/
theorem body_read (enc : KVDoc → List Nat) :
    ∀ (docs : List KVDoc) (A B : List Nat) (j : Nat), j < docs.length →
    (∀ d ∈ docs, (enc d).length < 2 ^ 64) →
    readU64 (A ++ docsBody enc docs ++ B)
        ((docPositions enc A.length docs).getD j 0) =
      .ok (enc (docs.getD j [])).length ∧
    ((A ++ docsBody enc docs ++ B).drop
        ((docPositions enc A.length docs).getD j 0 + 8)).take
        (enc (docs.getD j [])).length = enc (docs.getD j []) := by
  intro docs
  induction docs with
  | nil => intro A B j hj _; simp at hj
  | cons d rest ih =>
    intro A B j hj hsz
    cases j with
    | zero =>
      rw [show docPositions enc A.length (d :: rest) =
        A.length :: docPositions enc (A.length + 8 + (enc d).length) rest from rfl]
      rw [List.getD_cons_zero]
      rw [show (d :: rest).getD 0 [] = d from rfl]
      constructor
      · rw [show A ++ docsBody enc (d :: rest) ++ B =
          A ++ packU64 (enc d).length ++ (enc d ++ docsBody enc rest ++ B) by
            simp [docsBody]]
        exact readU64_at A _ _ (hsz d (by simp))
      · rw [show A ++ docsBody enc (d :: rest) ++ B =
          (A ++ packU64 (enc d).length) ++ (enc d ++ (docsBody enc rest ++ B)) by
            simp [docsBody]]
        rw [show A.length + 8 = (A ++ packU64 (enc d).length).length by
          simp [packU64_length]]
        rw [List.drop_left, show (enc d).length = (enc d).length from rfl]
        rw [List.take_left]
    | succ j' =>
      rw [show docPositions enc A.length (d :: rest) =
        A.length :: docPositions enc (A.length + 8 + (enc d).length) rest from rfl]
      rw [List.getD_cons_succ]
      rw [show (d :: rest).getD (j' + 1) [] = rest.getD j' [] from rfl]
      have hA : A.length + 8 + (enc d).length =
          (A ++ packU64 (enc d).length ++ enc d).length := by
        simp [packU64_length]
        omega
      have hfile : A ++ docsBody enc (d :: rest) ++ B =
          (A ++ packU64 (enc d).length ++ enc d) ++ docsBody enc rest ++ B := by
        simp [docsBody]
      rw [hfile, hA]
      exact ih (A ++ packU64 (enc d).length ++ enc d) B j' (by simpa using hj)
        (fun x hx => hsz x (by simp [hx]))

/-- The block-loading loop succeeds on a file whose index entries all read
back, overwrites exactly the loaded range with the read values, and leaves
every other cache entry unchanged. -/
theorem loadIdx_spec (file : List Nat) (istart : Nat) (pos : Nat → Nat) :
    ∀ (fuel l : Nat) (cache : List Nat),
    (∀ j, l ≤ j → j < l + fuel → readU64 file (istart + 8 * j) = .ok (pos j)) →
    l + fuel ≤ cache.length →
    ∃ cache', loadIdx file istart fuel l cache = (.ok (), cache') ∧
      cache'.length = cache.length ∧
      (∀ j, l ≤ j → j < l + fuel → cache'.getD j 0 = pos j) ∧
      (∀ j, j < l ∨ l + fuel ≤ j → cache'.getD j 0 = cache.getD j 0) := by
  intro fuel
  induction fuel with
  | zero =>
    intro l cache _ _
    exact ⟨cache, rfl, rfl, fun j h1 h2 => by omega, fun j _ => rfl⟩
  | succ f ih =>
    intro l cache hread hlen
    obtain ⟨cache', h1, h2, h3, h4⟩ := ih (l + 1) (cache.set l (pos l))
      (fun j hj1 hj2 => hread j (by omega) (by omega))
      (by rw [List.length_set]; omega)
    refine ⟨cache', ?_, ?_, ?_, ?_⟩
    · rw [loadIdx, hread l (le_refl l) (by omega)]
      exact h1
    · rw [h2, List.length_set]
    · intro j hj1 hj2
      by_cases hjl : j = l
      · subst hjl
        rw [h4 j (by omega), getD_set_self cache j (pos j) 0 (by omega)]
      · exact h3 j (by omega) (by omega)
    · intro j hj
      rw [h4 j (by omega), getD_set_ne cache l j (pos l) 0 (by omega)]

theorem writerFile_length (enc : KVDoc → List Nat) (docs : List KVDoc) (meta : KVDoc) :
    (writerFile enc docs meta).length =
      32 + (docsBody enc docs).length + 8 * docs.length + 8 + (enc meta).length := by
  simp only [writerFile, List.length_append, header32_length, packU64_length,
    packList_length, docPositions_length]

theorem open_writerFile (enc : KVDoc → List Nat) (dec : List Nat → Option KVDoc)
    (docs : List KVDoc) (meta : KVDoc) (pid : Nat)
    (hm : dec (enc meta) = some meta)
    (hsize : (writerFile enc docs meta).length < NONE_VALUE) :
    openCurrentReader dec (writerFile enc docs meta) pid =
      .ok ⟨docs.length, 32 + (docsBody enc docs).length, meta,
           List.replicate docs.length NONE_VALUE, pid, 0⟩ := by
  have hwl := writerFile_length enc docs meta
  have hbody := docsBody_length_ge enc docs
  have hnn : NONE_VALUE < 2 ^ 64 := NONE_VALUE_lt
  have hcount : docs.length < 2 ^ 64 := by omega
  have histart : 32 + (docsBody enc docs).length < 2 ^ 64 := by omega
  have hmstart : 32 + (docsBody enc docs).length + 8 * docs.length < 2 ^ 64 := by omega
  have hfe : writerFile enc docs meta =
      header32 docs.length (32 + (docsBody enc docs).length)
          (32 + (docsBody enc docs).length + 8 * docs.length) ++
        (docsBody enc docs ++ packList (docPositions enc 32 docs) ++
          packU64 (enc meta).length ++ enc meta) := by
    rw [writerFile]
    simp [List.append_assoc]
  have hf := header32_fields docs.length (32 + (docsBody enc docs).length)
    (32 + (docsBody enc docs).length + 8 * docs.length)
    (docsBody enc docs ++ packList (docPositions enc 32 docs) ++
      packU64 (enc meta).length ++ enc meta) hcount histart hmstart
  have h8 : (writerFile enc docs meta).take 8 = TYPE_STR := by
    rw [hfe]; exact hf.1
  have hc : unpackLE (((writerFile enc docs meta).drop 8).take 8) = docs.length := by
    rw [hfe]; exact hf.2.1
  have hist : unpackLE (((writerFile enc docs meta).drop 16).take 8) =
      32 + (docsBody enc docs).length := by
    rw [hfe]; exact hf.2.2.1
  have hms : unpackLE (((writerFile enc docs meta).drop 24).take 8) =
      32 + (docsBody enc docs).length + 8 * docs.length := by
    rw [hfe]; exact hf.2.2.2
  have hmr : readU64 (writerFile enc docs meta)
      (32 + (docsBody enc docs).length + 8 * docs.length) = .ok (enc meta).length := by
    have e2 : writerFile enc docs meta =
        (header32 docs.length (32 + (docsBody enc docs).length)
            (32 + (docsBody enc docs).length + 8 * docs.length) ++
          docsBody enc docs ++ packList (docPositions enc 32 docs)) ++
          packU64 (enc meta).length ++ enc meta := by
      rw [writerFile]
    have hAlen : (header32 docs.length (32 + (docsBody enc docs).length)
        (32 + (docsBody enc docs).length + 8 * docs.length) ++
        docsBody enc docs ++ packList (docPositions enc 32 docs)).length =
        32 + (docsBody enc docs).length + 8 * docs.length := by
      simp only [List.length_append, header32_length, packList_length,
        docPositions_length]
    have h := readU64_at (header32 docs.length (32 + (docsBody enc docs).length)
        (32 + (docsBody enc docs).length + 8 * docs.length) ++
        docsBody enc docs ++ packList (docPositions enc 32 docs)) (enc meta)
        (enc meta).length (by omega)
    rw [hAlen] at h
    rw [e2]
    exact h
  have hsl : ((writerFile enc docs meta).drop
      (32 + (docsBody enc docs).length + 8 * docs.length + 8)).take
      (enc meta).length = enc meta := by
    have e3 : writerFile enc docs meta =
        (header32 docs.length (32 + (docsBody enc docs).length)
            (32 + (docsBody enc docs).length + 8 * docs.length) ++
          docsBody enc docs ++ packList (docPositions enc 32 docs) ++
          packU64 (enc meta).length) ++ enc meta := by
      rw [writerFile]
    have hAlen : (header32 docs.length (32 + (docsBody enc docs).length)
        (32 + (docsBody enc docs).length + 8 * docs.length) ++
        docsBody enc docs ++ packList (docPositions enc 32 docs) ++
        packU64 (enc meta).length).length =
        32 + (docsBody enc docs).length + 8 * docs.length + 8 := by
      simp only [List.length_append, header32_length, packList_length,
        docPositions_length, packU64_length]
    have h := List.drop_left (header32 docs.length (32 + (docsBody enc docs).length)
        (32 + (docsBody enc docs).length + 8 * docs.length) ++
        docsBody enc docs ++ packList (docPositions enc 32 docs) ++
        packU64 (enc meta).length) (enc meta)
    rw [hAlen] at h
    rw [e3, h, List.take_length]
  rw [openCurrentReader, if_neg (by omega)]
  simp only [h8, hc, hist, hms]
  rw [if_neg (by simp), if_neg (by push_neg; constructor <;> omega)]
  rw [hmr]
  simp only [hsl, hm]

/-- The shared indexed-read algorithm, run over a closed writer file with a
cache whose entries are each either still the sentinel or the true
position, returns the `i`-th written document and preserves that cache
invariant (loading a block only turns sentinels into true positions). -/
theorem indexedRead_writer (enc : KVDoc → List Nat) (dec : List Nat → Option KVDoc)
    (docs : List KVDoc) (meta : KVDoc) (bs : Nat) (hbs : 0 < bs)
    (hrt : ∀ d ∈ docs, dec (enc d) = some d)
    (hsize : (writerFile enc docs meta).length < NONE_VALUE)
    (cache : List Nat) (hcl : cache.length = docs.length)
    (hcok : ∀ j, j < docs.length → cache.getD j 0 = NONE_VALUE ∨
      cache.getD j 0 = (docPositions enc 32 docs).getD j 0)
    (i : Nat) (hi : i < docs.length) :
    ∃ cache',
      indexedRead dec (writerFile enc docs meta) bs
        (32 + (docsBody enc docs).length) docs.length cache i =
        (.ok (docs.getD i []), cache') ∧
      cache'.length = docs.length ∧
      ∀ j, j < docs.length → cache'.getD j 0 = NONE_VALUE ∨
        cache'.getD j 0 = (docPositions enc 32 docs).getD j 0 := by
  have hwl := writerFile_length enc docs meta
  have hnn : NONE_VALUE < 2 ^ 64 := NONE_VALUE_lt
  have hposle : ∀ x ∈ docPositions enc 32 docs,
      x + 8 ≤ 32 + (docsBody enc docs).length :=
    fun x hx => docPositions_mem_le enc docs 32 x hx
  have hposD : ∀ j, j < docs.length →
      (docPositions enc 32 docs).getD j 0 + 8 ≤ 32 + (docsBody enc docs).length := by
    intro j hj
    exact hposle _ (getD_mem _ j (by rw [docPositions_length]; exact hj) 0)
  have hszs : ∀ d ∈ docs, (enc d).length < 2 ^ 64 := by
    intro d hd
    have := encLen_le_body enc docs d hd
    omega
  have hidx : ∀ j, j < docs.length →
      readU64 (writerFile enc docs meta) (32 + (docsBody enc docs).length + 8 * j) =
        .ok ((docPositions enc 32 docs).getD j 0) := by
    intro j hj
    have e : writerFile enc docs meta =
        (header32 docs.length (32 + (docsBody enc docs).length)
            (32 + (docsBody enc docs).length + 8 * docs.length) ++
          docsBody enc docs) ++ packList (docPositions enc 32 docs) ++
          (packU64 (enc meta).length ++ enc meta) := by
      rw [writerFile]
      simp [List.append_assoc]
    have hAlen : (header32 docs.length (32 + (docsBody enc docs).length)
        (32 + (docsBody enc docs).length + 8 * docs.length) ++
        docsBody enc docs).length = 32 + (docsBody enc docs).length := by
      simp [header32_length]
    have h := packList_readU64 (docPositions enc 32 docs) j
      (header32 docs.length (32 + (docsBody enc docs).length)
          (32 + (docsBody enc docs).length + 8 * docs.length) ++
        docsBody enc docs)
      (packU64 (enc meta).length ++ enc meta)
      (by rw [docPositions_length]; exact hj)
      (fun x hx => by have := hposle x hx; omega)
    rw [hAlen] at h
    rw [e]
    exact h
  have hdoc : ∀ j, j < docs.length →
      readU64 (writerFile enc docs meta) ((docPositions enc 32 docs).getD j 0) =
        .ok (enc (docs.getD j [])).length ∧
      ((writerFile enc docs meta).drop
          ((docPositions enc 32 docs).getD j 0 + 8)).take
        (enc (docs.getD j [])).length = enc (docs.getD j []) := by
    intro j hj
    have e : writerFile enc docs meta =
        header32 docs.length (32 + (docsBody enc docs).length)
            (32 + (docsBody enc docs).length + 8 * docs.length) ++
          docsBody enc docs ++
          (packList (docPositions enc 32 docs) ++
            (packU64 (enc meta).length ++ enc meta)) := by
      rw [writerFile]
      simp [List.append_assoc]
    have h := body_read enc docs
      (header32 docs.length (32 + (docsBody enc docs).length)
        (32 + (docsBody enc docs).length + 8 * docs.length))
      (packList (docPositions enc 32 docs) ++ (packU64 (enc meta).length ++ enc meta))
      j hj hszs
    rw [header32_length] at h
    rw [e]
    exact h
  simp only [indexedRead]
  rw [if_pos (by omega)]
  by_cases hnone : cache.getD i 0 = NONE_VALUE
  · rw [if_pos hnone]
    have hl_le_i : blockLeft bs i ≤ i := Nat.div_mul_le_self i bs
    have hi_lt : i < blockLeft bs i + bs := by
      have h1 := Nat.div_add_mod i bs
      have h2 := Nat.mod_lt i hbs
      have h3 : blockLeft bs i = bs * (i / bs) := by
        rw [blockLeft, Nat.mul_comm]
      omega
    have hr_eq : blockLeft bs i +
        (min (blockLeft bs i + bs) docs.length - blockLeft bs i) =
        min (blockLeft bs i + bs) docs.length := by omega
    obtain ⟨cache', hload, hclen, hin, hout⟩ :=
      loadIdx_spec (writerFile enc docs meta) (32 + (docsBody enc docs).length)
        (fun j => (docPositions enc 32 docs).getD j 0)
        (min (blockLeft bs i + bs) docs.length - blockLeft bs i)
        (blockLeft bs i) cache
        (fun j hj1 hj2 => hidx j (by omega))
        (by omega)
    have hci : cache'.getD i 0 = (docPositions enc 32 docs).getD i 0 :=
      hin i hl_le_i (by omega)
    simp only [hload, hci, (hdoc i hi).1, (hdoc i hi).2,
      hrt (docs.getD i []) (getD_mem docs i hi [])]
    refine ⟨cache', rfl, by omega, ?_⟩
    intro j hj
    by_cases hjin : blockLeft bs i ≤ j ∧ j < min (blockLeft bs i + bs) docs.length
    · right
      exact hin j hjin.1 (by omega)
    · rw [hout j (by omega)]
      exact hcok j hj
  · rw [if_neg hnone]
    rcases hcok i hi with hcontra | hpos
    · exact absurd hcontra hnone
    · simp only [hpos, (hdoc i hi).1, (hdoc i hi).2,
        hrt (docs.getD i []) (getD_mem docs i hi [])]
      exact ⟨cache, rfl, hcl, hcok⟩

/-- One `read` call on a reader state that matches the writer file: the
header-derived fields survive, the cache invariant is preserved, and when
the index is in range the call returns the written document. -/
theorem readCur_writer (enc : KVDoc → List Nat) (dec : List Nat → Option KVDoc)
    (docs : List KVDoc) (meta : KVDoc) (bs pid : Nat) (hbs : 0 < bs)
    (hrt : ∀ d ∈ docs, dec (enc d) = some d)
    (hsize : (writerFile enc docs meta).length < NONE_VALUE)
    (st : RState)
    (h1 : st.count = docs.length)
    (h2 : st.index_start = 32 + (docsBody enc docs).length)
    (h3 : st.cache.length = docs.length)
    (h4 : ∀ j, j < docs.length → st.cache.getD j 0 = NONE_VALUE ∨
      st.cache.getD j 0 = (docPositions enc 32 docs).getD j 0)
    (op : Nat) :
    (readCur dec (writerFile enc docs meta) bs st pid op).2.count = docs.length ∧
    (readCur dec (writerFile enc docs meta) bs st pid op).2.index_start =
      32 + (docsBody enc docs).length ∧
    (readCur dec (writerFile enc docs meta) bs st pid op).2.cache.length = docs.length ∧
    (∀ j, j < docs.length →
      (readCur dec (writerFile enc docs meta) bs st pid op).2.cache.getD j 0 = NONE_VALUE ∨
      (readCur dec (writerFile enc docs meta) bs st pid op).2.cache.getD j 0 =
        (docPositions enc 32 docs).getD j 0) ∧
    (op < docs.length →
      (readCur dec (writerFile enc docs meta) bs st pid op).1 = .ok (docs.getD op [])) := by
  have hpcc : (pidCheck st pid).count = st.count := by rw [pidCheck]; split <;> rfl
  have hpci : (pidCheck st pid).index_start = st.index_start := by
    rw [pidCheck]; split <;> rfl
  have hpcca : (pidCheck st pid).cache = st.cache := by rw [pidCheck]; split <;> rfl
  by_cases hop : op < docs.length
  · obtain ⟨cache', hres, hclen, hcok'⟩ :=
      indexedRead_writer enc dec docs meta bs hbs hrt hsize st.cache h3 h4 op hop
    simp only [readCur, hpcc, hpci, hpcca, h1, h2, hres]
    exact ⟨by trivial, by trivial, hclen, hcok', fun _ => by trivial⟩
  · have hres : indexedRead dec (writerFile enc docs meta) bs
        (32 + (docsBody enc docs).length) docs.length st.cache op =
        (.error .indexError, st.cache) := by
      simp only [indexedRead]
      rw [if_neg (by omega)]
    simp only [readCur, hpcc, hpci, hpcca, h1, h2, hres]
    exact ⟨by trivial, by trivial, h3, h4, fun h => absurd h hop⟩

theorem runOps_writer (enc : KVDoc → List Nat) (dec : List Nat → Option KVDoc)
    (docs : List KVDoc) (meta : KVDoc) (bs pid : Nat) (hbs : 0 < bs)
    (hrt : ∀ d ∈ docs, dec (enc d) = some d)
    (hsize : (writerFile enc docs meta).length < NONE_VALUE) :
    ∀ (ops : List Nat) (st : RState),
    st.count = docs.length →
    st.index_start = 32 + (docsBody enc docs).length →
    st.cache.length = docs.length →
    (∀ j, j < docs.length → st.cache.getD j 0 = NONE_VALUE ∨
      st.cache.getD j 0 = (docPositions enc 32 docs).getD j 0) →
    (runOps dec (writerFile enc docs meta) bs pid ops st).count = docs.length ∧
    (runOps dec (writerFile enc docs meta) bs pid ops st).index_start =
      32 + (docsBody enc docs).length ∧
    (runOps dec (writerFile enc docs meta) bs pid ops st).cache.length = docs.length ∧
    (∀ j, j < docs.length →
      (runOps dec (writerFile enc docs meta) bs pid ops st).cache.getD j 0 = NONE_VALUE ∨
      (runOps dec (writerFile enc docs meta) bs pid ops st).cache.getD j 0 =
        (docPositions enc 32 docs).getD j 0) := by
  intro ops
  induction ops with
  | nil => intro st hh1 hh2 hh3 hh4; exact ⟨hh1, hh2, hh3, hh4⟩
  | cons op rest ih =>
    intro st hh1 hh2 hh3 hh4
    rw [runOps]
    obtain ⟨p1, p2, p3, p4, _⟩ := readCur_writer enc dec docs meta bs pid hbs hrt hsize
      st hh1 hh2 hh3 hh4 op
    exact ih _ p1 p2 p3 p4

/-- C1: write/read round-trip with block-loading equivalence.  For a file
written through `DocSetWriter.write` and finalised by `close` (modelled by
`writerFile`), a freshly opened `DocSetReader`, after ANY sequence `ops` of
prior `read` calls (sequential, reverse, random, even out-of-range), returns
at every in-range position `i` exactly the `i`-th written document; the
lazy block-granular index cache (block size `bs`, any positive value)
never changes the returned value. -/
theorem c1_write_read_roundtrip (enc : KVDoc → List Nat)
    (dec : List Nat → Option KVDoc) (docs : List KVDoc) (meta : KVDoc)
    (bs pid : Nat) (hbs : 0 < bs)
    (hrt : ∀ d ∈ docs, dec (enc d) = some d)
    (hm : dec (enc meta) = some meta)
    (hsize : (writerFile enc docs meta).length < NONE_VALUE)
    (ops : List Nat) (i : Nat) (hi : i < docs.length) :
    ∃ st0,
      openCurrentReader dec (writerFile enc docs meta) pid = .ok st0 ∧
      (readCur dec (writerFile enc docs meta) bs
        (runOps dec (writerFile enc docs meta) bs pid ops st0) pid i).1 =
        .ok (docs.getD i []) := by
  refine ⟨_, open_writerFile enc dec docs meta pid hm hsize, ?_⟩
  have hcache0 : ∀ j, j < docs.length →
      (List.replicate docs.length NONE_VALUE).getD j 0 = NONE_VALUE ∨
      (List.replicate docs.length NONE_VALUE).getD j 0 =
        (docPositions enc 32 docs).getD j 0 := by
    intro j hj
    left
    rw [List.getD_eq_getElem?_getD, List.getElem?_replicate, if_pos hj]
    rfl
  obtain ⟨q1, q2, q3, q4⟩ := runOps_writer enc dec docs meta bs pid hbs hrt hsize ops
    ⟨docs.length, 32 + (docsBody enc docs).length, meta,
      List.replicate docs.length NONE_VALUE, pid, 0⟩
    rfl rfl (by simp) hcache0
  exact ((readCur_writer enc dec docs meta bs pid hbs hrt hsize _
    q1 q2 q3 q4 i).2.2.2.2) hi

theorem c1_witness :
    ∃ st0,
      openCurrentReader wDec (writerFile wEnc [wDoc 0, wDoc 1, wDoc 2] (wDoc 2)) 7 =
        .ok st0 ∧
      (readCur wDec (writerFile wEnc [wDoc 0, wDoc 1, wDoc 2] (wDoc 2)) 2
        (runOps wDec (writerFile wEnc [wDoc 0, wDoc 1, wDoc 2] (wDoc 2)) 2 7
          [2, 0, 1] st0) 7 1).1 = .ok (wDoc 1) :=
  c1_write_read_roundtrip wEnc wDec [wDoc 0, wDoc 1, wDoc 2] (wDoc 2) 2 7
    (by decide) (by decide) (by decide) (by decide) [2, 0, 1] 1 (by decide)

theorem c10_witness :
    legacyOpen lDecW (legacyWriterFile lEncW 512 [] lMetaW) =
      .ok ⟨.vint 512, .vint 512, 0, [], false, []⟩ ∧
    (LState.fpOpen ⟨.vint 512, .vint 512, 0, [], false, []⟩ = false) ∧
    legacyClose (legacyClose ⟨.vint 512, .vint 512, 0, [], false, []⟩) =
      legacyClose ⟨.vint 512, .vint 512, 0, [], false, []⟩ ∧
    legacyRead lDecW (legacyWriterFile lEncW 512 [] lMetaW) 4
        (legacyClose ⟨.vint 512, .vint 512, 0, [], false, []⟩) 0 =
      legacyRead lDecW (legacyWriterFile lEncW 512 [] lMetaW) 4
        ⟨.vint 512, .vint 512, 0, [], false, []⟩ 0 := by
  have h := c10_legacy_lazy_handle lDecW (legacyWriterFile lEncW 512 [] lMetaW) 4
    ⟨.vint 512, .vint 512, 0, [], false, []⟩
    ⟨.vint 512, .vint 512, 0, [], false, []⟩ 0 rfl
  exact ⟨rfl, h.1, h.2.1, h.2.2.2⟩
